import Mathlib

/-!
A verification development for the mingo library (v0.10.0): an in-memory
MongoDB-style query and aggregation engine.  The two JavaScript builds of the
library (an ES6 source and an ES5 build, referred to below as file 0 and
file 1) are embedded shallowly over a common JSON-like value type.

Modelled fragment.  JavaScript numbers are modelled as exact rationals plus a
NaN marker (floating-point rounding and infinities are outside the fragment;
`Math.sqrt` is modelled by `ratSqrt`, which is exact on squares of rationals).
Dates, regular expressions and functions do not occur in the embedded value
type.  Property access is modelled on plain JSON data: object key lookup and
numeric array indexing (plus the `length` property of arrays); prototype
properties, boxed-string indexing and the TypeError raised by property access
on null/undefined are outside the fragment.  The operator registries are
embedded as fragments containing the operators exercised by the claims
(`$sqrt`, `$trunc`; `$push`, `$sum`, `$stdDevPop`, `$stdDevSamp`; `$eq`,
`$ne`); membership tests against a registry use these fragment lists.
-/

namespace Mingo

/-- JavaScript numbers of the modelled fragment: NaN or an exact rational. -/
inductive JsNum where
  | nan
  | rat (q : ℚ)
deriving DecidableEq, Repr

/-- JSON-like JavaScript values (the modelled fragment).  Objects are
association lists in insertion order; JavaScript objects cannot hold a
duplicate key, and all values built by the embedded code keep keys unique. -/
inductive Val where
  | null
  | undef
  | bool (b : Bool)
  | num (n : JsNum)
  | str (s : String)
  | arr (elems : List Val)
  | obj (fields : List (String × Val))

namespace Val

/-- Shorthand for an integer-valued number. -/
def int (n : ℤ) : Val := .num (.rat (n : ℚ))

end Val

mutual

/-- Structural (Lean-level) equality test for `Val`. -/
def valBEq : Val → Val → Bool
  | .null, .null => true
  | .undef, .undef => true
  | .bool a, .bool b => a == b
  | .num a, .num b => a == b
  | .str a, .str b => a == b
  | .arr a, .arr b => valListBEq a b
  | .obj a, .obj b => valFieldsBEq a b
  | _, _ => false

def valListBEq : List Val → List Val → Bool
  | [], [] => true
  | x :: xs, y :: ys => valBEq x y && valListBEq xs ys
  | _, _ => false

def valFieldsBEq : List (String × Val) → List (String × Val) → Bool
  | [], [] => true
  | (k, v) :: fs, (k', v') :: fs' => k == k' && valBEq v v' && valFieldsBEq fs fs'
  | _, _ => false

end

mutual

theorem valBEq_iff : ∀ a b, valBEq a b = true ↔ a = b
  | .null, b => by cases b <;> simp [valBEq]
  | .undef, b => by cases b <;> simp [valBEq]
  | .bool _, b => by cases b <;> simp [valBEq]
  | .num _, b => by cases b <;> simp [valBEq]
  | .str _, b => by cases b <;> simp [valBEq]
  | .arr xs, b => by
      cases b with
      | arr ys => simp only [valBEq, Val.arr.injEq]; exact valListBEq_iff xs ys
      | null => simp [valBEq]
      | undef => simp [valBEq]
      | bool b => simp [valBEq]
      | num n => simp [valBEq]
      | str s => simp [valBEq]
      | obj fs => simp [valBEq]
  | .obj fs, b => by
      cases b with
      | obj gs => simp only [valBEq, Val.obj.injEq]; exact valFieldsBEq_iff fs gs
      | null => simp [valBEq]
      | undef => simp [valBEq]
      | bool b => simp [valBEq]
      | num n => simp [valBEq]
      | str s => simp [valBEq]
      | arr xs => simp [valBEq]

theorem valListBEq_iff : ∀ a b, valListBEq a b = true ↔ a = b
  | [], b => by cases b <;> simp [valListBEq]
  | x :: xs, b => by
      cases b with
      | nil => simp [valListBEq]
      | cons y ys =>
          simp only [valListBEq, Bool.and_eq_true, List.cons.injEq]
          rw [valBEq_iff, valListBEq_iff]

theorem valFieldsBEq_iff : ∀ a b, valFieldsBEq a b = true ↔ a = b
  | [], b => by cases b <;> simp [valFieldsBEq]
  | (k, v) :: fs, b => by
      cases b with
      | nil => simp [valFieldsBEq]
      | cons p fs' =>
          obtain ⟨k', v'⟩ := p
          simp only [valFieldsBEq, Bool.and_eq_true, List.cons.injEq,
            Prod.mk.injEq, beq_iff_eq]
          rw [valBEq_iff, valFieldsBEq_iff]

end

instance : DecidableEq Val := fun a b => decidable_of_iff _ (valBEq_iff a b)

/-- `settings.key`, the identity field (default configuration). -/
def settingsKey : String := "_id"

/-- `type(value)`: the tag produced by `Object.prototype.toString`. -/
def typeOf : Val → String
  | .null => "null"
  | .undef => "undefined"
  | .bool _ => "boolean"
  | .num _ => "number"
  | .str _ => "string"
  | .arr _ => "array"
  | .obj _ => "object"

def isString : Val → Bool := fun v => typeOf v == "string"
def isNumber : Val → Bool := fun v => typeOf v == "number"
def isBoolean : Val → Bool := fun v => typeOf v == "boolean"
def isArrayV : Val → Bool := fun v => typeOf v == "array"
def isObjectV : Val → Bool := fun v => typeOf v == "object"
def isNullV : Val → Bool := fun v => typeOf v == "null"
def isUndefined : Val → Bool := fun v => typeOf v == "undefined"
def isUnknown : Val → Bool := fun v => isNullV v || isUndefined v

/-- JavaScript truthiness on the modelled fragment. -/
def truthy : Val → Bool
  | .null => false
  | .undef => false
  | .bool b => b
  | .num .nan => false
  | .num (.rat q) => decide (q ≠ 0)
  | .str s => decide (s ≠ "")
  | .arr _ => true
  | .obj _ => true

/-- `isEmpty(x)` from the source: null/undefined, an empty array, an empty
object, or any falsy value. -/
def isEmpty (x : Val) : Bool :=
  isUnknown x ||
    (isArrayV x && (match x with | .arr xs => xs.isEmpty | _ => false)) ||
    (isObjectV x && (match x with | .obj fs => fs.isEmpty | _ => false)) ||
    !truthy x

/-- `coerceArray`. -/
def coerceArray (x : Val) : List Val :=
  match x with
  | .arr xs => xs
  | v => [v]

/-- Association-list lookup modelling `obj[k]` on a plain object: the value at
the key, or `undefined` when absent. -/
def lookupD : List (String × Val) → String → Val
  | [], _ => .undef
  | (k, v) :: fs, key => if k == key then v else lookupD fs key

/-- `has(obj, k)`. -/
def hasKey (fields : List (String × Val)) (key : String) : Bool :=
  fields.any (fun p => p.1 == key)

/-- Object assignment `obj[k] = v`: overwrite in place (keeping the original
key position, as JavaScript does) or append. -/
def assocSet : List (String × Val) → String → Val → List (String × Val)
  | [], key, v => [(key, v)]
  | (k, w) :: fs, key, v =>
      if k == key then (k, v) :: fs else (k, w) :: assocSet fs key v

/-- `delete obj[k]`. -/
def assocDelete (fields : List (String × Val)) (key : String) :
    List (String × Val) :=
  fields.filter (fun p => p.1 ≠ key)

/-- Split a selector on `'.'` (`selector.split('.')`), implemented over the
character list so that concrete selectors evaluate by kernel reduction. -/
def splitDotChars : List Char → List String
  | [] => [""]
  | c :: cs =>
      let rest := splitDotChars cs
      if c = '.' then "" :: rest
      else
        match rest with
        | [] => [String.mk [c]]
        | r :: rs => (String.mk (c :: r.data)) :: rs

def splitDot (s : String) : List String := splitDotChars s.data

/-- `s.startsWith p`, over character lists. -/
def strStartsWith (s p : String) : Bool := p.data.isPrefixOf s.data

/-- `s.drop n` (characters), over character lists. -/
def strDrop (s : String) (n : ℕ) : String := String.mk (s.data.drop n)

/-- `String.prototype.trim`, over character lists. -/
def strTrim (s : String) : String :=
  String.mk ((s.data.dropWhile Char.isWhitespace).reverse.dropWhile
    Char.isWhitespace).reverse

/-- Join a list of strings with a separator. -/
def strJoinSep (sep : String) : List String → String
  | [] => ""
  | [x] => x
  | x :: xs => x ++ sep ++ strJoinSep sep xs

/-- A selector segment is an array index iff it matches `^\d+$`. -/
def isDigits (s : String) : Bool :=
  s ≠ "" && s.data.all Char.isDigit

/-- Numeric value of an all-digit segment. -/
def digitsToNat (s : String) : ℕ :=
  s.data.foldl (fun n c => n * 10 + (c.toNat - '0'.toNat)) 0

/-- `getValue(obj, field) = obj[field]` on the modelled fragment: object key
lookup; numeric indexing and `length` on arrays; `undefined` elsewhere. -/
def getValue : Val → String → Val
  | .obj fs, k => lookupD fs k
  | .arr xs, k =>
      if isDigits k then (xs.getD (digitsToNat k) .undef)
      else if k == "length" then .num (.rat (xs.length : ℚ))
      else .undef
  | _, _ => .undef

mutual

/-- `clone(arg)`: recursive structural copy. -/
def clone : Val → Val
  | .arr xs => .arr (cloneList xs)
  | .obj fs => .obj (cloneFields fs)
  | v => v

def cloneList : List Val → List Val
  | [] => []
  | x :: xs => clone x :: cloneList xs

def cloneFields : List (String × Val) → List (String × Val)
  | [] => []
  | (k, v) :: fs => (k, clone v) :: cloneFields fs

end

/-- String form of a JavaScript number.  Integers are rendered exactly as
JavaScript does; non-integer rationals (whose JavaScript decimal rendering is
outside the fragment) use a `num/den` placeholder. -/
def numToString : JsNum → String
  | .nan => "NaN"
  | .rat q => if q.den = 1 then toString q.num else toString q.num ++ "/" ++ toString q.den

mutual

/-- JavaScript string coercion (`'' + value`) on the modelled fragment. -/
def jsToString : Val → String
  | .null => "null"
  | .undef => "undefined"
  | .bool b => if b then "true" else "false"
  | .num n => numToString n
  | .str s => s
  | .arr xs => jsArrToString xs
  | .obj _ => "[object Object]"

/-- `Array.prototype.toString`: elements joined with `,`, null/undefined
elements rendered as the empty string. -/
def jsArrToString : List Val → String
  | [] => ""
  | x :: xs =>
      let hd := match x with
        | .null => ""
        | .undef => ""
        | v => jsToString v
      match xs with
      | [] => hd
      | _ => hd ++ "," ++ jsArrToString xs

end

/-- `ToNumber` for strings: trimmed; empty string is `0`; optionally signed
decimal integer or fraction.  (Hex and exponent forms are outside the
fragment.) -/
def strToNumber (s : String) : JsNum :=
  let t := strTrim s
  if t = "" then .rat 0
  else
    let sign : ℚ := if strStartsWith t "-" then -1 else 1
    let body := if strStartsWith t "-" || strStartsWith t "+" then strDrop t 1 else t
    if isDigits body then .rat (sign * (digitsToNat body : ℚ))
    else
      match splitDot body with
      | [ip, fp] =>
          if (isDigits ip || ip = "") && (isDigits fp || fp = "") &&
              (ip ≠ "" || fp ≠ "") then
            .rat (sign * ((digitsToNat ip : ℚ) +
              (digitsToNat fp : ℚ) / ((10 : ℚ) ^ fp.data.length)))
          else .nan
      | _ => .nan

/-- `ToNumber` on the modelled fragment (arrays coerce through their string
form; objects through `"[object Object]"`). -/
def jsToNumber : Val → JsNum
  | .null => .rat 0
  | .undef => .nan
  | .bool b => .rat (if b then 1 else 0)
  | .num n => n
  | .str s => strToNumber s
  | .arr xs => strToNumber (jsToString (.arr xs))
  | .obj fs => strToNumber (jsToString (.obj fs))

/-- The global `isNaN(v)`: `ToNumber(v)` is NaN.  In particular
`isNaN(undefined) = true` while `isNaN(null) = false`. -/
def jsIsNaN (v : Val) : Bool := jsToNumber v == .nan

/-- A primitive for the abstract relational comparison. -/
inductive Prim where
  | s (str : String)
  | n (num : JsNum)

/-- `ToPrimitive` (number hint) on the modelled fragment. -/
def toPrim : Val → Prim
  | .str s => .s s
  | .arr xs => .s (jsToString (.arr xs))
  | .obj fs => .s (jsToString (.obj fs))
  | v => .n (jsToNumber v)

/-- The abstract relational comparison `x < y`: string comparison when both
primitives are strings, numeric comparison otherwise (false on NaN). -/
def primLt : Prim → Prim → Bool
  | .s a, .s b => decide (a < b)
  | a, b =>
      match (match a with | .s s => strToNumber s | .n m => m),
            (match b with | .s s => strToNumber s | .n m => m) with
      | .rat x, .rat y => decide (x < y)
      | _, _ => false

/-- JavaScript `a < b` on values. -/
def jsLt (a b : Val) : Bool := primLt (toPrim a) (toPrim b)

/-- JavaScript `a > b` on values. -/
def jsGt (a b : Val) : Bool := primLt (toPrim b) (toPrim a)

/-- Quote a string as JSON (escaping `"`,`\` and newline; other control
characters do not occur in the fragment). -/
def jsonQuote (s : String) : String :=
  "\"" ++ strJoinSep "" (s.data.map (fun c =>
    if c = '"' then "\\\""
    else if c = '\\' then "\\\\"
    else if c = '\n' then "\\n"
    else String.mk [c])) ++ "\""

mutual

/-- `JSON.stringify` on the modelled fragment; `none` is JavaScript's
`undefined` result (for `undefined` input). -/
def jsonOfVal : Val → Option String
  | .null => some "null"
  | .undef => none
  | .bool b => some (if b then "true" else "false")
  | .num .nan => some "null"
  | .num (.rat q) => some (numToString (.rat q))
  | .str s => some (jsonQuote s)
  | .arr xs => some ("[" ++ strJoinSep "," (jsonArrParts xs) ++ "]")
  | .obj fs => some ("\x7b" ++ strJoinSep "," (jsonFieldParts fs) ++ "\x7d")

/-- Array elements: `undefined` serializes as `null`. -/
def jsonArrParts : List Val → List String
  | [] => []
  | x :: xs => ((jsonOfVal x).getD "null") :: jsonArrParts xs

/-- Object entries: keys with `undefined` values are dropped. -/
def jsonFieldParts : List (String × Val) → List String
  | [] => []
  | (k, v) :: fs =>
      match jsonOfVal v with
      | none => jsonFieldParts fs
      | some hv => (jsonQuote k ++ ":" ++ hv) :: jsonFieldParts fs

end

/-- `encode(value) = stringify({'': value}) + type(value) + value`. -/
def encode (v : Val) : String :=
  ((jsonOfVal (.obj [("", v)])).getD "undefined") ++ typeOf v ++ jsToString v

/-- Truncation to a signed 32-bit integer (the `| 0` and `<<` coercion). -/
def toInt32 (x : ℤ) : ℤ := (x + 2 ^ 31) % 2 ^ 32 - 2 ^ 31

/-- One step of the string-hash fold `hash = ((hash << 5) - hash + chr) | 0`. -/
def jsHashStep (h : ℤ) (c : ℕ) : ℤ := toInt32 (toInt32 (h * 32) - h + c)

/-- The 32-bit string hash used by `hashcode`. -/
def jsHashString (s : String) : ℤ :=
  if s = "" then 0 else s.data.foldl (fun h c => jsHashStep h c.toNat) 0

/-- `hashcode(value)`.  The source returns the decimal string of the 32-bit
hash (used as object keys); two hash keys coincide exactly when the integers
do, so the model keeps the integer. -/
def hashcode (v : Val) : ℤ := jsHashString (encode v)

theorem lookupD_sizeOf_le (fs : List (String × Val)) (k : String) :
    sizeOf (lookupD fs k) ≤ sizeOf fs := by
  induction fs with
  | nil => simp [lookupD]
  | cons p fs ih =>
      obtain ⟨k', v⟩ := p
      simp only [lookupD]
      split
      · simp; omega
      · have := ih
        simp; omega

mutual

/-- `isEqual(a, b)`: deep structural equality; NaN equals NaN; objects
compare by sorted key lists and then per-key values.  (The source's leading
`a === b` reference test is subsumed by the structural comparison; the
date/regexp branch has no inhabitants in the fragment.) -/
def isEqual : Val → Val → Bool
  | .null, .null => true
  | .undef, .undef => true
  | .bool a, .bool b => a == b
  | .num m, .num n => m == n
  | .str a, .str b => a == b
  | .arr a, .arr b => a.length == b.length && isEqualList a b
  | .obj a, .obj b =>
      let ka := (a.map Prod.fst).insertionSort (· ≤ ·)
      let kb := (b.map Prod.fst).insertionSort (· ≤ ·)
      a.length == b.length && ka == kb && isEqualKeys ka a b
  | _, _ => false

termination_by a b => (sizeOf a + sizeOf b, 0)
decreasing_by
  all_goals simp_wf
  all_goals exact Prod.Lex.left _ _ (by omega)

def isEqualList : List Val → List Val → Bool
  | [], [] => true
  | x :: xs, y :: ys => isEqual x y && isEqualList xs ys
  | _, _ => false
termination_by xs ys => (sizeOf xs + sizeOf ys, 0)
decreasing_by
  all_goals simp_wf
  all_goals exact Prod.Lex.left _ _ (by omega)

def isEqualKeys : List String → List (String × Val) → List (String × Val) → Bool
  | [], _, _ => true
  | k :: ks, a, b => isEqual (lookupD a k) (lookupD b k) && isEqualKeys ks a b
termination_by ks a b => (sizeOf a + sizeOf b, ks.length + 1)
decreasing_by
  · simp_wf
    have h1 := lookupD_sizeOf_le a k
    have h2 := lookupD_sizeOf_le b k
    rcases Nat.eq_or_lt_of_le (Nat.add_le_add h1 h2) with h | h
    · rw [h]; exact Prod.Lex.right _ (by omega)
    · exact Prod.Lex.left _ _ h
  · simp_wf
    exact Prod.Lex.right _ (by omega)

end

mutual

theorem clone_eq_id : ∀ v, clone v = v
  | .null => rfl
  | .undef => rfl
  | .bool _ => rfl
  | .num _ => rfl
  | .str _ => rfl
  | .arr xs => by rw [clone, cloneList_eq_id]
  | .obj fs => by rw [clone, cloneFields_eq_id]

theorem cloneList_eq_id : ∀ xs, cloneList xs = xs
  | [] => rfl
  | x :: xs => by rw [cloneList, clone_eq_id, cloneList_eq_id]

theorem cloneFields_eq_id : ∀ fs, cloneFields fs = fs
  | [] => rfl
  | (k, v) :: fs => by rw [cloneFields, clone_eq_id, cloneFields_eq_id]

end

/-- The segment loop of `resolve(obj, selector, deepFlag)`.  `first` is true
on the first iteration of an invocation (`i === 0` in the source).  The
nested `resolve(item, names[i], true)` call on array elements is inlined: for
a single non-index segment with the deep flag it returns the element itself
when that element is an array, and `getValue` of it otherwise. -/
def resolveList : Val → List String → Bool → Bool → Val
  | value, [], _, _ => value
  | value, n :: rest, deepFlag, first =>
      if !isDigits n && isArrayV value then
        if deepFlag && first then value
        else
          let mapped := (match value with | .arr xs => xs | _ => []).map
            (fun item => if isArrayV item then item else getValue item n)
          let v' := match mapped with
            | [x] => x
            | _ => .arr mapped
          if isUndefined v' then .undef else resolveList v' rest deepFlag false
      else
        let v' := getValue value n
        if isUndefined v' then .undef else resolveList v' rest false false

/-- `resolve(obj, selector, deepFlag)`. -/
def resolve (obj : Val) (selector : String) (deepFlag : Bool) : Val :=
  resolveList obj (splitDot selector) deepFlag true

/-- `resolveObj(obj, selector)`: the minimal object subtree containing the
resolved value.  The source's try/catch (with `assert`/`assertExists` inside)
is modelled by the `Option`: `none` is `undefined`. -/
def resolveObj : Val → List String → Option Val
  | .undef, _ => none
  | _, [] => none
  | obj, [key] =>
      match obj with
      | .arr xs =>
          if isDigits key then
            match getValue (.arr xs) key with
            | .undef => none
            | r => some (.arr [r])
          else
            let results := xs.attach.filterMap
              (fun x => resolveObj x.1 [key])
            if results.isEmpty then none else some (.arr results)
      | _ =>
          match getValue obj key with
          | .undef => none
          | v => some (.obj [(key, v)])
  | obj, key :: r :: rest =>
      match obj with
      | .arr xs =>
          if isDigits key then
            match resolveObj (getValue (.arr xs) key) (r :: rest) with
            | none => none
            | some x => some (.arr [x])
          else
            let results := xs.attach.filterMap
              (fun x => resolveObj x.1 (key :: r :: rest))
            if results.isEmpty then none else some (.arr results)
      | _ =>
          match resolveObj (getValue obj key) (r :: rest) with
          | none => none
          | some x => some (.obj [(key, x)])
termination_by obj names => (names.length, sizeOf obj)
decreasing_by
  all_goals simp_wf
  · exact Prod.Lex.right _ (by
      have := List.sizeOf_lt_of_mem x.2; omega)
  · exact Prod.Lex.left _ _ (by omega)
  · exact Prod.Lex.right _ (by
      have := List.sizeOf_lt_of_mem x.2; omega)
  · exact Prod.Lex.left _ _ (by omega)

/-- `setValue(obj, selector, value)` (via `traverse` without `force`): write
`value` at the path.  Arrays met at a non-index segment broadcast the write
to every element.  Writing through a missing or primitive intermediate — a
TypeError in JavaScript — leaves the value unchanged; `$project` only writes
into subtrees built by `resolveObj`, which contain the full path. -/
def setValueAt : Val → List String → Val → Val
  | v, [], _ => v
  | v, [k], value =>
      match v with
      | .obj fs => .obj (assocSet fs k value)
      | .arr xs =>
          if isDigits k then .arr (xs.set (digitsToNat k) value) else .arr xs
      | _ => v
  | v, k :: rest, value =>
      match v with
      | .arr xs =>
          if !isDigits k then
            .arr (xs.attach.map (fun x => setValueAt x.1 (k :: rest) value))
          else
            let i := digitsToNat k
            if i < xs.length then
              .arr (xs.set i (setValueAt (xs.getD i .undef) rest value))
            else .arr xs
      | .obj fs =>
          if hasKey fs k then
            .obj (assocSet fs k (setValueAt (lookupD fs k) rest value))
          else .obj fs
      | _ => v
termination_by v names _ => (names.length, sizeOf v)
decreasing_by
  all_goals simp_wf
  · exact Prod.Lex.right _ (by
      have := List.sizeOf_lt_of_mem x.2; omega)
  · exact Prod.Lex.left _ _ (by omega)
  · exact Prod.Lex.left _ _ (by omega)

/-- `removeValue(obj, selector)` (via `traverse`): splice an index out of an
array, delete a key from an object; guarded no-ops elsewhere. -/
def removeValueAt : Val → List String → Val
  | v, [] => v
  | v, [k] =>
      match v with
      | .arr xs =>
          if isDigits k then .arr (xs.eraseIdx (digitsToNat k)) else .arr xs
      | .obj fs => .obj (assocDelete fs k)
      | _ => v
  | v, k :: rest =>
      match v with
      | .arr xs =>
          if !isDigits k then
            .arr (xs.attach.map (fun x => removeValueAt x.1 (k :: rest)))
          else
            let i := digitsToNat k
            if i < xs.length then
              .arr (xs.set i (removeValueAt (xs.getD i .undef) rest))
            else .arr xs
      | .obj fs =>
          if hasKey fs k then
            .obj (assocSet fs k (removeValueAt (lookupD fs k) rest))
          else .obj fs
      | _ => v
termination_by v names => (names.length, sizeOf v)
decreasing_by
  all_goals simp_wf
  · exact Prod.Lex.right _ (by
      have := List.sizeOf_lt_of_mem x.2; omega)
  · exact Prod.Lex.left _ _ (by omega)
  · exact Prod.Lex.left _ _ (by omega)

/-- `setValue` on a selector string. -/
def setValue (obj : Val) (selector : String) (value : Val) : Val :=
  setValueAt obj (splitDot selector) value

/-- `removeValue` on a selector string. -/
def removeValue (obj : Val) (selector : String) : Val :=
  removeValueAt obj (splitDot selector)

/-- The result record of `groupBy`. -/
structure Grouped where
  keys : List Val
  groups : List (List Val)

/-- First entry with the given hash. -/
def lookupIdx : List (ℤ × ℕ) → ℤ → Option ℕ
  | [], _ => none
  | (h, i) :: rest, key => if h == key then some i else lookupIdx rest key

/-- Replace the element at an index by a function of itself. -/
def listModifyAt {α : Type} (f : α → α) : List α → ℕ → List α
  | [], _ => []
  | x :: xs, 0 => f x :: xs
  | x :: xs, n + 1 => x :: listModifyAt f xs n

/-- One iteration of `groupBy`'s loop, on a precomputed (key, document)
pair. -/
def groupByStep (st : Grouped × List (ℤ × ℕ)) (keyObj : Val × Val) :
    Grouped × List (ℤ × ℕ) :=
  let g := st.1
  let lookup := st.2
  let h := hashcode keyObj.1
  match lookupIdx lookup h with
  | some i =>
      ({ g with groups := listModifyAt (· ++ [keyObj.2]) g.groups i }, lookup)
  | none =>
      ({ keys := g.keys ++ [keyObj.1], groups := g.groups ++ [[keyObj.2]] },
        lookup ++ [(h, g.keys.length)])

/-- `groupBy` over precomputed (key, document) pairs. -/
def groupByKeyed (pairs : List (Val × Val)) : Grouped :=
  (pairs.foldl groupByStep (⟨[], []⟩, [])).1

/-- `groupBy(collection, fn)`: partition the collection by the hashcode of
the computed key, keys and groups in first-occurrence order. -/
def groupBy (collection : List Val) (fn : Val → Val) : Grouped :=
  groupByKeyed (collection.map (fun o => (fn o, o)))

/-- The `sortKeys` table built by `sortBy`'s iteratee pass (first occurrence
of each hash wins, matching the `has` guard in the source): entries
(hash, value, index) in iteration order, searched front to back. -/
def buildSortKeysAux : List Val → ℕ → List (ℤ × Val × ℕ)
  | [], _ => []
  | v :: vs, n => (hashcode v, v, n) :: buildSortKeysAux vs (n + 1)

def buildSortKeys (vs : List Val) : List (ℤ × Val × ℕ) :=
  buildSortKeysAux vs 0

/-- Look up a sort-key entry by hash. -/
def skLookup : List (ℤ × Val × ℕ) → ℤ → Val × ℕ
  | [], _ => (.undef, 0)
  | (h, v, i) :: rest, key => if h == key then (v, i) else skLookup rest key

/-- The comparator passed to the native sort by `sortBy`: order by the sort
key (JavaScript `<`/`>`), break ties by first-occurrence index. -/
def sortByCmp (table : List (ℤ × Val × ℕ)) (a b : Val) : ℤ :=
  let A := skLookup table (hashcode a)
  let B := skLookup table (hashcode b)
  if jsLt A.1 B.1 then -1
  else if jsGt A.1 B.1 then 1
  else if A.2 < B.2 then -1
  else if A.2 > B.2 then 1
  else 0

/-- `sortBy(collection, fn)` at the identity iteratee used by `$sort` (the
iteratee also records each element's index in `sortedIndex`, modelled
separately by `sortedIndexOf`).  The unspecified-but-stable native
`Array.prototype.sort` is modelled as a stable insertion sort. -/
def sortBy (collection : List Val) : List Val :=
  let table := buildSortKeys collection
  let sorted := collection.map clone
  sorted.insertionSort (fun a b => sortByCmp table a b ≤ 0)

/-- The `sortedIndex` side table written by the iteratee: repeated
assignment, so the last occurrence of a hash wins. -/
def sortedIndexAux (h : ℤ) : List Val → ℕ → Option ℕ → Option ℕ
  | [], _, acc => acc
  | v :: vs, n, acc =>
      sortedIndexAux h vs (n + 1) (if hashcode v == h then some n else acc)

def sortedIndexOf (keys : List Val) (h : ℤ) : Option ℕ :=
  sortedIndexAux h keys 0 none

/-- One pass of `$sort` for a single sort key: group by the resolved key
value, sort the group keys, reverse them for a descending (`-1`) direction,
and concatenate the groups in that order. -/
def sortPass (collection : List Val) (key : String) (descending : Bool) :
    List Val :=
  let grouped := groupBy collection (fun obj => resolve obj key false)
  let indexKeys := sortBy grouped.keys
  let indexKeys := if descending then indexKeys.reverse else indexKeys
  indexKeys.foldl (fun acc item =>
    acc ++ (match sortedIndexOf grouped.keys (hashcode item) with
            | some i => grouped.groups.getD i []
            | none => [])) []

/-- `$sort(collection, sortKeys)`: iterate the sort keys in reverse
declaration order; a direction is descending exactly when the spec value is
`-1`. -/
def dollarSort (collection : List Val) (sortKeys : List (String × Val)) :
    List Val :=
  if sortKeys.isEmpty then collection
  else
    ((sortKeys.map Prod.fst).reverse).foldl
      (fun coll key =>
        sortPass coll key (lookupD sortKeys key == .int (-1)))
      collection

/-- `ToIntegerOrInfinity`: a JavaScript number used as a slice index is
truncated toward zero. -/
def jsToInt (q : ℚ) : ℤ := if 0 ≤ q then q.floor else q.ceil

/-- `Array.prototype.slice(start)` at a (finite) number argument. -/
def jsSliceFrom (xs : List Val) (q : ℚ) : List Val :=
  let n := jsToInt q
  if n < 0 then xs.drop (max 0 ((xs.length : ℤ) + n)).toNat
  else xs.drop n.toNat

/-- `Array.prototype.slice(0, end)` at a (finite) number argument. -/
def jsSliceTake (xs : List Val) (q : ℚ) : List Val :=
  let n := jsToInt q
  if n < 0 then xs.take ((xs.length : ℤ) + n).toNat
  else xs.take n.toNat

/-! ### Number arithmetic and the operator registries -/

/-- JavaScript `+` on numbers (NaN absorbing). -/
def jsAdd : JsNum → JsNum → JsNum
  | .rat a, .rat b => .rat (a + b)
  | _, _ => .nan

/-- JavaScript `-` on numbers. -/
def jsSub : JsNum → JsNum → JsNum
  | .rat a, .rat b => .rat (a - b)
  | _, _ => .nan

/-- JavaScript `*` on numbers. -/
def jsMul : JsNum → JsNum → JsNum
  | .rat a, .rat b => .rat (a * b)
  | _, _ => .nan

/-- JavaScript `/` on numbers.  Division by zero yields ±Infinity (NaN for
0/0); infinities are outside the fragment and collapse to NaN. -/
def jsDiv : JsNum → JsNum → JsNum
  | .rat a, .rat b => if b = 0 then .nan else .rat (a / b)
  | _, _ => .nan

/-- The model of the double-precision `Math.sqrt` on nonnegative rationals:
exact on squares of rationals, an integer-square-root approximation
elsewhere (where the double result is itself inexact). -/
def ratSqrt (q : ℚ) : ℚ :=
  (Nat.sqrt q.num.toNat : ℚ) / (Nat.sqrt q.den : ℚ)

/-- `Math.sqrt` on a number: NaN on NaN and on negatives. -/
def jsSqrtNum : JsNum → JsNum
  | .nan => .nan
  | .rat q => if q < 0 then .nan else .rat (ratSqrt q)

/-- `Math.trunc`: truncation toward zero. -/
def ratTrunc (q : ℚ) : ℚ :=
  if 0 ≤ q then ((q.floor : ℤ) : ℚ) else ((q.ceil : ℤ) : ℚ)

/-- `stddev({dataset, sampled})` from the source: the mean divides by
`N - (sampled ? 1 : 0)`, the squared-deviation sum divides by `N`, where `N`
is the dataset length or `1` when the dataset is empty. -/
def stddev (dataset : List JsNum) (sampled : Bool) : JsNum :=
  let sum := dataset.foldl jsAdd (.rat 0)
  let N : ℚ := if dataset.length = 0 then 1 else (dataset.length : ℚ)
  let e : ℚ := if sampled = true then 1 else 0
  let avg := jsDiv sum (.rat (N - e))
  jsSqrtNum (jsDiv
    (dataset.foldl (fun acc n => jsAdd acc (jsMul (jsSub n avg) (jsSub n avg)))
      (.rat 0))
    (.rat N))

/-- The context record of file 1's `stddev` (the ES5 build accesses
`ctx.dataset` and `ctx.sampled` instead of destructuring). -/
structure StddevCtx where
  dataset : List JsNum
  sampled : Bool

/-- `stddev(ctx)` as written in file 1. -/
def stddev1 (ctx : StddevCtx) : JsNum :=
  let sum := ctx.dataset.foldl (fun acc n => jsAdd acc n) (.rat 0)
  let N : ℚ := if ctx.dataset.length = 0 then 1 else (ctx.dataset.length : ℚ)
  let e : ℚ := if ctx.sampled = true then 1 else 0
  let avg := jsDiv sum (.rat (N - e))
  jsSqrtNum (jsDiv
    (ctx.dataset.foldl
      (fun acc n => jsAdd acc (jsMul (jsSub n avg) (jsSub n avg)))
      (.rat 0))
    (.rat N))

/-- The embedded fragment of the aggregate-operator registry. -/
def aggregateOps : List String := ["$sqrt", "$trunc"]

/-- The embedded fragment of the group-operator registry. -/
def groupOps : List String := ["$push", "$sum", "$stdDevPop", "$stdDevSamp"]

def SYS_VARS : List String := ["$$ROOT", "$$CURRENT"]

def REDACT_VARS : List String := ["$$KEEP", "$$PRUNE", "$$DESCEND"]

/-- `ops(class).includes(field)` for a field that may be any value. -/
def valOpIn (field : Val) (tbl : List String) : Bool :=
  match field with
  | .str s => tbl.contains s
  | _ => false

def valOpName : Val → String
  | .str s => s
  | _ => ""

/-- Rank used by the termination measure of the evaluator: 1 when the field
dispatches to an operator, 0 otherwise. -/
def opRank (field : Val) : ℕ :=
  if valOpIn field aggregateOps || valOpIn field groupOps then 1 else 0

theorem opRank_le_one (field : Val) : opRank field ≤ 1 := by
  unfold opRank; split <;> omega

theorem val_sizeOf_pos (v : Val) : 1 ≤ sizeOf v := by
  cases v <;> simp_arith

/-- `isNumber` as a partial projection. -/
def numOf : Val → Option JsNum
  | .num n => some n
  | _ => none

mutual

/-- `computeValue(obj, expr, field, opt)` over the embedded operator
fragment.  `opt` is the captured `opt.root` when present. -/
def computeValue (obj expr field : Val) (opt : Option Val) : Except String Val :=
  let root := opt.getD (clone obj)
  if hA : valOpIn field aggregateOps then
    aggregateCall (valOpName field) obj expr
  else if hG : valOpIn field groupOps then
    match computeValue obj expr .null (some root) with
    | .error e => .error e
    | .ok o =>
        match o with
        | .arr xs => groupCall (valOpName field) xs .null
        | _ => .error ("Must use collection type with " ++ jsToString field ++
            " operator")
  else
    match expr with
    | .str s =>
        if strStartsWith s "$" then
          if SYS_VARS.contains s then
            .ok (if s == "$$ROOT" then root else obj)
          else if REDACT_VARS.contains s then .ok (.str s)
          else
            let svs := SYS_VARS.filter (fun v => strStartsWith s (v ++ "."))
            let p := match svs with
              | [v] => (if v == "$$ROOT" then root else obj, strDrop s v.data.length)
              | _ => (obj, s)
            .ok (resolve p.1 (strDrop p.2 1) false)
        else .ok (clone (.str s))
    | .arr xs =>
        match xs.attach.mapM (fun x => computeValue obj x.1 .null none) with
        | .error e => .error e
        | .ok rs => .ok (.arr rs)
    | .obj fs => computeObjExpr obj fs fs root
    | _ => .ok (clone expr)
termination_by 20 * sizeOf expr + 5 * opRank field + 4
decreasing_by
  · simp_wf
    have ha1 : opRank field = 1 := by simp [opRank, hA]
    omega
  · simp_wf
    have h0 : opRank Val.null = 0 := rfl
    have hg1 : opRank field = 1 := by simp [opRank, hG]
    omega
  · simp_wf
    have hg1 : opRank field = 1 := by simp [opRank, hG]
    have hvp := val_sizeOf_pos expr
    omega
  · simp_wf
    have h0 : opRank Val.null = 0 := rfl
    have hsz := List.sizeOf_lt_of_mem x.2
    omega
  · simp_wf
    omega

/-- The per-key loop of the object case of `computeValue`: evaluate each
entry with its key as the field; a key that is an aggregate operator must be
the only key, and its value is returned alone. -/
def computeObjExpr (obj : Val) (remaining full : List (String × Val))
    (root : Val) : Except String Val :=
  match remaining with
  | [] => .ok (.obj [])
  | (key, sub) :: rest =>
      match computeValue obj sub (.str key) (some root) with
      | .error e => .error e
      | .ok v =>
          if aggregateOps.contains key then
            if full.length == 1 then .ok v
            else .error ("Invalid aggregation expression '" ++
              ((jsonOfVal (.obj full)).getD "undefined") ++ "'")
          else
            match computeObjExpr obj rest full root with
            | .error e => .error e
            | .ok (.obj acc) => .ok (.obj ((key, v) :: acc))
            | .ok other => .ok other
termination_by 20 * sizeOf remaining + 23
decreasing_by
  all_goals simp_wf
  all_goals try simp only [opRank]
  all_goals try split
  all_goals omega

/-- Dispatch into the embedded aggregate-operator table. -/
def aggregateCall (op : String) (obj expr : Val) : Except String Val :=
  if op == "$sqrt" then dollarSqrt obj expr
  else if op == "$trunc" then dollarTrunc obj expr
  else .error "aggregate operator outside the embedded fragment"
termination_by 20 * sizeOf expr + 8
decreasing_by
  all_goals simp_wf
  all_goals omega

/-- `$sqrt(obj, expr)`: NaN when the (globally) `isNaN` test accepts the
computed operand — note `isNaN(undefined)` is true — then null on
null, then the strict-positivity assertion, then the square root. -/
def dollarSqrt (obj expr : Val) : Except String Val :=
  match computeValue obj expr .null none with
  | .error e => .error e
  | .ok n =>
      if jsIsNaN n then .ok (.num .nan)
      else if isUnknown n then .ok .null
      else
        match n with
        | .num (.rat q) =>
            if q > 0 then .ok (.num (.rat (ratSqrt q)))
            else .error
              "$sqrt must be a valid expression that resolves to a non-negative number."
        | _ => .error
            "$sqrt must be a valid expression that resolves to a non-negative number."
termination_by 20 * sizeOf expr + 7
decreasing_by
  all_goals simp_wf
  all_goals
    (have h0 : opRank Val.null = 0 := rfl
     omega)

/-- `$trunc(obj, expr)`: same structure as `$sqrt` with truncation. -/
def dollarTrunc (obj expr : Val) : Except String Val :=
  match computeValue obj expr .null none with
  | .error e => .error e
  | .ok n =>
      if jsIsNaN n then .ok (.num .nan)
      else if isUnknown n then .ok .null
      else
        match n with
        | .num (.rat q) =>
            if q > 0 then .ok (.num (.rat (ratTrunc q)))
            else .error
              "$trunc must be a valid expression that resolves to a non-negative number."
        | _ => .error
            "$trunc must be a valid expression that resolves to a non-negative number."
termination_by 20 * sizeOf expr + 7
decreasing_by
  all_goals simp_wf
  all_goals
    (have h0 : opRank Val.null = 0 := rfl
     omega)

/-- Dispatch into the embedded group-operator table. -/
def groupCall (op : String) (collection : List Val) (expr : Val) :
    Except String Val :=
  if op == "$push" then dollarPush collection expr
  else if op == "$sum" then dollarSum collection expr
  else if op == "$stdDevPop" then dollarStdDevPop collection expr
  else if op == "$stdDevSamp" then dollarStdDevSamp collection expr
  else .error "group operator outside the embedded fragment"
termination_by 20 * sizeOf expr + 8
decreasing_by
  all_goals simp_wf
  all_goals omega

/-- `$push(collection, expr)`. -/
def dollarPush (collection : List Val) (expr : Val) : Except String Val :=
  if isUnknown expr then .ok (.arr (cloneList collection))
  else
    match collection.attach.mapM (fun x => computeValue x.1 expr .null none) with
    | .error e => .error e
    | .ok rs => .ok (.arr rs)
termination_by 20 * sizeOf expr + 6
decreasing_by
  all_goals simp_wf
  all_goals
    (have h0 : opRank Val.null = 0 := rfl
     omega)

/-- `$sum(collection, expr)`: a number literal short-cuts to
`collection.length * expr`; otherwise sum the numeric results of `$push`.
(The collection argument is an array by construction, so the source's
not-an-array guard returning 0 has no inhabitants here.) -/
def dollarSum (collection : List Val) (expr : Val) : Except String Val :=
  match expr with
  | .num n =>
      .ok (.num (match n with
        | .nan => .nan
        | .rat q => .rat ((collection.length : ℚ) * q)))
  | e =>
      match dollarPush collection e with
      | .error err1 => .error err1
      | .ok pushed =>
          let nums := (match pushed with | .arr xs => xs | _ => []).filterMap numOf
          .ok (.num (nums.foldl jsAdd (.rat 0)))
termination_by 20 * sizeOf expr + 7
decreasing_by
  all_goals simp_wf
  all_goals
    (have h0 : opRank Val.null = 0 := rfl
     omega)

/-- `$stdDevPop(collection, expr)`. -/
def dollarStdDevPop (collection : List Val) (expr : Val) : Except String Val :=
  match dollarPush collection expr with
  | .error e => .error e
  | .ok pushed =>
      let dataset := (match pushed with | .arr xs => xs | _ => []).filterMap numOf
      .ok (.num (stddev dataset false))
termination_by 20 * sizeOf expr + 7
decreasing_by
  all_goals simp_wf
  all_goals
    (have h0 : opRank Val.null = 0 := rfl
     omega)

/-- `$stdDevSamp(collection, expr)`. -/
def dollarStdDevSamp (collection : List Val) (expr : Val) : Except String Val :=
  match dollarPush collection expr with
  | .error e => .error e
  | .ok pushed =>
      let dataset := (match pushed with | .arr xs => xs | _ => []).filterMap numOf
      .ok (.num (stddev dataset true))
termination_by 20 * sizeOf expr + 7
decreasing_by
  all_goals simp_wf
  all_goals
    (have h0 : opRank Val.null = 0 := rfl
     omega)

end

/-! ### The ES5 build (file 1): its `computeValue` and operator table,
translated from `src/unnamed/part_001`.  The build is token-identical to
file 0 modulo ES5 syntax (`function` expressions for arrows, and `stddev`
taking its context record without destructuring). -/

mutual

/-- File 1's `computeValue` over the embedded operator fragment.  `opt` is the captured `opt.root` when present. -/
def computeValue1 (obj expr field : Val) (opt : Option Val) : Except String Val :=
  let root := opt.getD (clone obj)
  if hA : valOpIn field aggregateOps then
    aggregateCall1 (valOpName field) obj expr
  else if hG : valOpIn field groupOps then
    match computeValue1 obj expr .null (some root) with
    | .error e => .error e
    | .ok o =>
        match o with
        | .arr xs => groupCall1 (valOpName field) xs .null
        | _ => .error ("Must use collection type with " ++ jsToString field ++
            " operator")
  else
    match expr with
    | .str s =>
        if strStartsWith s "$" then
          if SYS_VARS.contains s then
            .ok (if s == "$$ROOT" then root else obj)
          else if REDACT_VARS.contains s then .ok (.str s)
          else
            let svs := SYS_VARS.filter (fun v => strStartsWith s (v ++ "."))
            let p := match svs with
              | [v] => (if v == "$$ROOT" then root else obj, strDrop s v.data.length)
              | _ => (obj, s)
            .ok (resolve p.1 (strDrop p.2 1) false)
        else .ok (clone (.str s))
    | .arr xs =>
        match xs.attach.mapM (fun x => computeValue1 obj x.1 .null none) with
        | .error e => .error e
        | .ok rs => .ok (.arr rs)
    | .obj fs => computeObjExpr1 obj fs fs root
    | _ => .ok (clone expr)
termination_by 20 * sizeOf expr + 5 * opRank field + 4
decreasing_by
  · simp_wf
    have ha1 : opRank field = 1 := by simp [opRank, hA]
    omega
  · simp_wf
    have h0 : opRank Val.null = 0 := rfl
    have hg1 : opRank field = 1 := by simp [opRank, hG]
    omega
  · simp_wf
    have hg1 : opRank field = 1 := by simp [opRank, hG]
    have hvp := val_sizeOf_pos expr
    omega
  · simp_wf
    have h0 : opRank Val.null = 0 := rfl
    have hsz := List.sizeOf_lt_of_mem x.2
    omega
  · simp_wf
    omega

/-- The per-key loop of the object case of `computeValue1`: evaluate each
entry with its key as the field; a key that is an aggregate operator must be
the only key, and its value is returned alone. -/
def computeObjExpr1 (obj : Val) (remaining full : List (String × Val))
    (root : Val) : Except String Val :=
  match remaining with
  | [] => .ok (.obj [])
  | (key, sub) :: rest =>
      match computeValue1 obj sub (.str key) (some root) with
      | .error e => .error e
      | .ok v =>
          if aggregateOps.contains key then
            if full.length == 1 then .ok v
            else .error ("Invalid aggregation expression '" ++
              ((jsonOfVal (.obj full)).getD "undefined") ++ "'")
          else
            match computeObjExpr1 obj rest full root with
            | .error e => .error e
            | .ok (.obj acc) => .ok (.obj ((key, v) :: acc))
            | .ok other => .ok other
termination_by 20 * sizeOf remaining + 23
decreasing_by
  all_goals simp_wf
  all_goals try simp only [opRank]
  all_goals try split
  all_goals omega

/-- Dispatch into the embedded aggregate-operator table. -/
def aggregateCall1 (op : String) (obj expr : Val) : Except String Val :=
  if op == "$sqrt" then dollarSqrt1 obj expr
  else if op == "$trunc" then dollarTrunc1 obj expr
  else .error "aggregate operator outside the embedded fragment"
termination_by 20 * sizeOf expr + 8
decreasing_by
  all_goals simp_wf
  all_goals omega

/-- `$sqrt(obj, expr)`: NaN when the (globally) `isNaN` test accepts the
computed operand — note `isNaN(undefined)` is true — then null on
null, then the strict-positivity assertion, then the square root. -/
def dollarSqrt1 (obj expr : Val) : Except String Val :=
  match computeValue1 obj expr .null none with
  | .error e => .error e
  | .ok n =>
      if jsIsNaN n then .ok (.num .nan)
      else if isUnknown n then .ok .null
      else
        match n with
        | .num (.rat q) =>
            if q > 0 then .ok (.num (.rat (ratSqrt q)))
            else .error
              "$sqrt must be a valid expression that resolves to a non-negative number."
        | _ => .error
            "$sqrt must be a valid expression that resolves to a non-negative number."
termination_by 20 * sizeOf expr + 7
decreasing_by
  all_goals simp_wf
  all_goals
    (have h0 : opRank Val.null = 0 := rfl
     omega)

/-- `$trunc(obj, expr)`: same structure as `$sqrt` with truncation. -/
def dollarTrunc1 (obj expr : Val) : Except String Val :=
  match computeValue1 obj expr .null none with
  | .error e => .error e
  | .ok n =>
      if jsIsNaN n then .ok (.num .nan)
      else if isUnknown n then .ok .null
      else
        match n with
        | .num (.rat q) =>
            if q > 0 then .ok (.num (.rat (ratTrunc q)))
            else .error
              "$trunc must be a valid expression that resolves to a non-negative number."
        | _ => .error
            "$trunc must be a valid expression that resolves to a non-negative number."
termination_by 20 * sizeOf expr + 7
decreasing_by
  all_goals simp_wf
  all_goals
    (have h0 : opRank Val.null = 0 := rfl
     omega)

/-- Dispatch into the embedded group-operator table. -/
def groupCall1 (op : String) (collection : List Val) (expr : Val) :
    Except String Val :=
  if op == "$push" then dollarPush1 collection expr
  else if op == "$sum" then dollarSum1 collection expr
  else if op == "$stdDevPop" then dollarStdDevPop1 collection expr
  else if op == "$stdDevSamp" then dollarStdDevSamp1 collection expr
  else .error "group operator outside the embedded fragment"
termination_by 20 * sizeOf expr + 8
decreasing_by
  all_goals simp_wf
  all_goals omega

/-- `$push(collection, expr)`. -/
def dollarPush1 (collection : List Val) (expr : Val) : Except String Val :=
  if isUnknown expr then .ok (.arr (cloneList collection))
  else
    match collection.attach.mapM (fun x => computeValue1 x.1 expr .null none) with
    | .error e => .error e
    | .ok rs => .ok (.arr rs)
termination_by 20 * sizeOf expr + 6
decreasing_by
  all_goals simp_wf
  all_goals
    (have h0 : opRank Val.null = 0 := rfl
     omega)

/-- `$sum(collection, expr)`: a number literal short-cuts to
`collection.length * expr`; otherwise sum the numeric results of `$push`.
(The collection argument is an array by construction, so the source's
not-an-array guard returning 0 has no inhabitants here.) -/
def dollarSum1 (collection : List Val) (expr : Val) : Except String Val :=
  match expr with
  | .num n =>
      .ok (.num (match n with
        | .nan => .nan
        | .rat q => .rat ((collection.length : ℚ) * q)))
  | e =>
      match dollarPush1 collection e with
      | .error err1 => .error err1
      | .ok pushed =>
          let nums := (match pushed with | .arr xs => xs | _ => []).filterMap numOf
          .ok (.num (nums.foldl jsAdd (.rat 0)))
termination_by 20 * sizeOf expr + 7
decreasing_by
  all_goals simp_wf
  all_goals
    (have h0 : opRank Val.null = 0 := rfl
     omega)

/-- `$stdDevPop(collection, expr)`. -/
def dollarStdDevPop1 (collection : List Val) (expr : Val) : Except String Val :=
  match dollarPush1 collection expr with
  | .error e => .error e
  | .ok pushed =>
      let dataset := (match pushed with | .arr xs => xs | _ => []).filterMap numOf
      .ok (.num (stddev1 ⟨dataset, false⟩))
termination_by 20 * sizeOf expr + 7
decreasing_by
  all_goals simp_wf
  all_goals
    (have h0 : opRank Val.null = 0 := rfl
     omega)

/-- `$stdDevSamp(collection, expr)`. -/
def dollarStdDevSamp1 (collection : List Val) (expr : Val) : Except String Val :=
  match dollarPush1 collection expr with
  | .error e => .error e
  | .ok pushed =>
      let dataset := (match pushed with | .arr xs => xs | _ => []).filterMap numOf
      .ok (.num (stddev1 ⟨dataset, true⟩))
termination_by 20 * sizeOf expr + 7
decreasing_by
  all_goals simp_wf
  all_goals
    (have h0 : opRank Val.null = 0 := rfl
     omega)

end

mutual

/-- `accumulate(collection, field, expr)`: a group-operator field dispatches
into the group table; an object expression is evaluated per key with the
only-one-group-operator rule; anything else is `undefined`. -/
def accumulate (collection : List Val) (field : String) (expr : Val) :
    Except String Val :=
  if groupOps.contains field then groupCall field collection expr
  else
    match expr with
    | .obj fs => accumulateObj collection fs fs
    | _ => .ok .undef
termination_by 2 * sizeOf expr + 1
decreasing_by
  all_goals simp_wf
  all_goals omega

def accumulateObj (collection : List Val)
    (remaining full : List (String × Val)) : Except String Val :=
  match remaining with
  | [] => .ok (.obj [])
  | (key, sub) :: rest =>
      match accumulate collection key sub with
      | .error e => .error e
      | .ok v =>
          if groupOps.contains key then
            if full.length > 1 then
              .error ("Invalid $group expression '" ++
                ((jsonOfVal (.obj full)).getD "undefined") ++ "'")
            else .ok v
          else
            match accumulateObj collection rest full with
            | .error e => .error e
            | .ok (.obj acc) => .ok (.obj ((key, v) :: acc))
            | .ok other => .ok other
termination_by 2 * sizeOf remaining
decreasing_by
  all_goals simp_wf
  all_goals omega

end

/-- `$group(collection, expr)`: partition by the identity sub-expression and
accumulate the remaining keys.  The stage deletes the identity key from the
caller's expression object (`delete expr[settings.key]`) before reading the
accumulators; the model returns the post-call expression alongside the
result to expose this frame effect.  (The source computes the partition keys
inside `groupBy`'s loop; an error aborts at the same first offending
document.) -/
def dollarGroup (collection : List Val) (expr : List (String × Val)) :
    Except String (List Val × List (String × Val)) := do
  let idKey := lookupD expr settingsKey
  let kvs ← collection.mapM
    (fun o => (computeValue o idKey idKey none).map (fun k => (k, o)))
  let partitions := groupByKeyed kvs
  let expr2 := assocDelete expr settingsKey
  let result ← (partitions.keys.zip partitions.groups).mapM (fun p => do
      let base : List (String × Val) :=
        if isUndefined p.1 then [] else [(settingsKey, p.1)]
      let accs ← expr2.mapM
        (fun q => (accumulate p.2 q.1 q.2).map (fun v => (q.1, v)))
      pure (Val.obj (base ++ accs)))
  return (result, expr2)

/-! ### $project -/

/-- The embedded projection-operator registry fragment is empty (none of
`$elemMatch`, `$slice`, `$stdDevPop`, `$stdDevSamp` is needed by the
claims), so the projection-operator dispatch branch below is vacuous. -/
def projectionOps : List String := []

/-- The validation loop of `$project`: a non-identity key whose value is
`0`/`false` sets the exclusion flag, any other value the inclusion flag; the
in-loop assertion fires as soon as both are set.  (The source reads
`expr[k]` for each key of `expr`; with JavaScript's unique keys this is the
pair list itself.) -/
def isExclV (v : Val) : Bool := v == Val.int 0 || v == Val.bool false

def projCheck (pairs : List (String × Val)) (c0 c1 : Bool) :
    Except String Unit :=
  match pairs with
  | [] => .ok ()
  | (k, v) :: rest =>
      if k == settingsKey then projCheck rest c0 c1
      else
        let c0' := if isExclV v then true else c0
        let c1' := if isExclV v then c1 else true
        if c0' == c1' then
          .error "Projection cannot have a mix of inclusion and exclusion."
        else projCheck rest c0' c1'

/-- `Object.assign(target, src)` merging into a field list under
construction: an object source contributes its entries, an array source its
index-keyed elements; primitive sources contribute nothing of the modelled
fragment. -/
def assignFromVal (target : List (String × Val)) : Val → List (String × Val)
  | .obj fs => fs.foldl (fun acc p => assocSet acc p.1 p.2) target
  | .arr xs => xs.enum.foldl (fun acc p => assocSet acc (toString p.1) p.2) target
  | _ => target

/-- `Object.assign(clone(obj), cloneObj)` with an arbitrary target value. -/
def assignInto (target : Val) (src : List (String × Val)) : Val :=
  match target with
  | .obj fs => .obj (src.foldl (fun acc p => assocSet acc p.1 p.2) fs)
  | t => t

/-- The per-document loop state of `$project`.  `foundSlice` is only set by
the `$slice` projection operator, which is outside the embedded registry
fragment, so it stays false. -/
structure ProjDocState where
  cloneObj : List (String × Val)
  foundSlice : Bool
  foundExclusion : Bool
  dropKeys : List String

/-- The body of `$project`'s per-key loop. -/
def projectKeyStep (expr : List (String × Val)) (obj : Val)
    (st : ProjDocState) (key : String) : Except String ProjDocState :=
  let subExpr := lookupD expr key
  let st := if key ≠ settingsKey && subExpr == Val.int 0 then
      { st with foundExclusion := true } else st
  -- the tail of the loop body once the chain has assigned `value`
  -- (`undefined` marks a value the chain left unassigned)
  let continueWith : Val → ProjDocState := fun value =>
    let value := clone value
    let objValue := (resolveObj obj (splitDot key)).map clone
    match objValue with
    | some ov =>
        let ov := if !isUndefined value then setValue ov key value else ov
        { st with cloneObj := assignFromVal st.cloneObj ov }
    | none =>
        if !isUndefined value then
          { st with cloneObj := assocSet st.cloneObj key value }
        else st
  if key == settingsKey && isEmpty subExpr then
    .ok (continueWith (getValue obj key))
  else if isString subExpr then
    (computeValue obj subExpr (.str key) none).map continueWith
  else if subExpr == Val.int 1 || subExpr == Val.bool true then
    .ok (continueWith .undef)
  else if isObjectV subExpr then
    let opkeys := (match subExpr with | .obj fs => fs.map Prod.fst | _ => [])
    let operator : Option String :=
      if opkeys.length > 1 then none else opkeys.head?
    if (match operator with
        | some op => projectionOps.contains op
        | none => false) then
      .error "projection operator outside the embedded fragment"
    else
      (computeValue obj subExpr (.str key) none).map continueWith
  else
    .ok { st with dropKeys := st.dropKeys ++ [key] }

/-- The per-document body of `$project`. -/
def projectDoc (expr : List (String × Val)) (objKeys : List String)
    (idOnly : Bool) (obj : Val) : Except String Val := do
  let st0 : ProjDocState :=
    ⟨[], false, false, if idOnly then [settingsKey] else []⟩
  let st ← objKeys.foldlM (projectKeyStep expr obj) st0
  if st.foundSlice || st.foundExclusion || idOnly then
    let merged := assignInto (clone obj) st.cloneObj
    return st.dropKeys.foldl removeValue merged
  else
    return .obj st.cloneObj

/-- `$project(collection, expr)`. -/
def dollarProject (collection : List Val) (expr : List (String × Val)) :
    Except String (List Val) := do
  if expr.isEmpty then return collection
  let objKeys := expr.map Prod.fst
  projCheck expr false false
  let idv := lookupD expr settingsKey
  let p : List String × Bool :=
    if objKeys.contains settingsKey then
      if idv == Val.int 0 || idv == Val.bool false then
        let ks := objKeys.filter (fun k => k ≠ settingsKey)
        (ks, ks.isEmpty)
      else (objKeys, false)
    else (objKeys ++ [settingsKey], false)
  -- `assert(!objKeys.includes(settings.key))` after the filter
  if p.1.contains settingsKey && (idv == Val.int 0 || idv == Val.bool false) then
    throw "Must not contain collections _id"
  collection.mapM (projectDoc expr p.1 p.2)

/-! ### Pipeline runtime -/

/-- A parsed pipeline stage: the single registered `$`-key of a stage object
with its operand (the fragment of the stage table needed by the claims). -/
inductive Stage where
  | sort (spec : List (String × Val))
  | skip (n : ℚ)
  | limit (n : ℚ)
  | project (spec : List (String × Val))
  | group (expr : List (String × Val))

/-- Dispatch of one stage in `Aggregator.run`. -/
def runStage (collection : List Val) : Stage → Except String (List Val)
  | .sort spec => .ok (dollarSort collection spec)
  | .skip n => .ok (jsSliceFrom collection n)
  | .limit n => .ok (jsSliceTake collection n)
  | .project spec => dollarProject collection spec
  | .group expr => (dollarGroup collection expr).map Prod.fst

/-- `Mingo.aggregate(collection, pipeline)` =
`new Aggregator(pipeline).run(collection)`. -/
def aggregate (collection : List Val) (pipeline : List Stage) :
    Except String (List Val) :=
  pipeline.foldlM runStage collection

/-! ### Query matcher and cursor -/

/-- The embedded fragment of the query-operator registry. -/
def queryOps : List String := ["$eq", "$ne"]

/-- `Array.prototype.findIndex`. -/
def jsFindIndex (p : Val → Bool) : List Val → ℤ → ℤ
  | [], _ => -1
  | x :: xs, i => if p x then i else jsFindIndex p xs (i + 1)

/-- The simple query operator `$eq(a, b)`: deep equality of the resolved
value with the operand, or membership of the operand among the elements of
an array value. -/
def dollarEqOp (a b : Val) : Bool :=
  isEqual a b ||
    (isArrayV a &&
      jsFindIndex (fun e => isEqual b e)
        (match a with | .arr xs => xs | _ => []) 0 ≠ -1)

/-- A compiled predicate: the closure produced by the wrapped simple
operator for one field/operator/operand triple. -/
inductive QueryPred where
  | simple (field : String) (op : String) (value : Val)

/-- The `test` of a compiled predicate: resolve the field path on the
candidate, then apply the operator function. -/
def predTest (p : QueryPred) (obj : Val) : Bool :=
  match p with
  | .simple field op value =>
      let lhs := resolve obj field false
      if op == "$eq" then dollarEqOp lhs value
      else if op == "$ne" then !dollarEqOp lhs value
      else false

/-- `isSimpleType`: primitives and non-object-like values — everything but
arrays and plain objects on the fragment. -/
def isSimpleTypeV : Val → Bool
  | .arr _ => false
  | .obj _ => false
  | _ => true

/-- `normalize(expr)`: wrap primitives (and operator-free maps) into
`{$eq: expr}`.  Regular expressions, and hence the `$regex` branch, are
outside the fragment. -/
def normalize (expr : Val) : Val :=
  if isSimpleTypeV expr then .obj [("$eq", expr)]
  else
    match expr with
    | .obj fs =>
        if (fs.map Prod.fst).all (fun k => !queryOps.contains k) then
          .obj [("$eq", .obj fs)]
        else .obj fs
    | .arr xs =>
        -- the own keys of an array are its indices, never operator names
        .obj [("$eq", .arr xs)]
    | e => e

/-- Compilation of one non-compound criteria field: normalize, then one
predicate per operator key (`_processOperator` rejects names missing from
the registry). -/
def compileField (field : String) (expr : Val) :
    Except String (List QueryPred) :=
  match normalize expr with
  | .obj fs => fs.mapM (fun p =>
      if queryOps.contains p.1 then .ok (QueryPred.simple field p.1 p.2)
      else .error ("Invalid query operator '" ++ p.1 ++ "' detected"))
  | _ => .ok []   -- unreachable: `normalize` yields an object on the fragment

/-- `Query._compile`: empty criteria compile to no predicates; otherwise the
criteria must be an object and each entry contributes predicates.  The
compound operators `$and`/`$or`/`$nor`/`$where` are outside the embedded
registry fragment, so `_processOperator` rejects them like any unregistered
name. -/
def queryCompile (criteria : Val) : Except String (List QueryPred) :=
  if isEmpty criteria then .ok []
  else
    match criteria with
    | .obj fs =>
        (fs.mapM (fun p =>
          if p.1 == "$and" || p.1 == "$or" || p.1 == "$nor" ||
              p.1 == "$where" then
            .error ("Invalid query operator '" ++ p.1 ++ "' detected")
          else compileField p.1 p.2)).map List.flatten
    | _ => .error "Criteria must be of type Object"

/-- `Mingo.Query`: the criteria, the constructor's projection argument, and
the compiled predicate conjunction. -/
structure MQuery where
  criteria : Val
  projection : Val
  compiled : List QueryPred

/-- `new Mingo.Query(criteria, projection)`. -/
def mkQuery (criteria : Val) (projection : Val) : Except String MQuery :=
  (queryCompile criteria).map (fun ps => ⟨criteria, projection, ps⟩)

/-- `Query.test(obj)`: the conjunction of the compiled predicates. -/
def queryTest (q : MQuery) (obj : Val) : Bool :=
  q.compiled.all (fun p => predTest p obj)

/-! File 1's query matcher, translated from `src/unnamed/part_001` (the ES5
build's `Query` is token-identical to file 0's modulo function syntax; the
compiled-closure type `QueryPred`/`MQuery` is shared modelling apparatus). -/

/-- File 1's simple query operator `$eq(a, b)`. -/
def dollarEqOp1 (a b : Val) : Bool :=
  isEqual a b ||
    (isArrayV a &&
      jsFindIndex (fun e => isEqual b e)
        (match a with | .arr xs => xs | _ => []) 0 ≠ -1)

/-- File 1's `test` of a compiled predicate. -/
def predTest1 (p : QueryPred) (obj : Val) : Bool :=
  match p with
  | .simple field op value =>
      let lhs := resolve obj field false
      if op == "$eq" then dollarEqOp1 lhs value
      else if op == "$ne" then !dollarEqOp1 lhs value
      else false

/-- File 1's `normalize(expr)`. -/
def normalize1 (expr : Val) : Val :=
  if isSimpleTypeV expr then .obj [("$eq", expr)]
  else
    match expr with
    | .obj fs =>
        if (fs.map Prod.fst).all (fun k => !queryOps.contains k) then
          .obj [("$eq", .obj fs)]
        else .obj fs
    | .arr xs => .obj [("$eq", .arr xs)]
    | e => e

/-- File 1's compilation of one criteria field. -/
def compileField1 (field : String) (expr : Val) :
    Except String (List QueryPred) :=
  match normalize1 expr with
  | .obj fs => fs.mapM (fun p =>
      if queryOps.contains p.1 then .ok (QueryPred.simple field p.1 p.2)
      else .error ("Invalid query operator '" ++ p.1 ++ "' detected"))
  | _ => .ok []

/-- File 1's `Query._compile`. -/
def queryCompile1 (criteria : Val) : Except String (List QueryPred) :=
  if isEmpty criteria then .ok []
  else
    match criteria with
    | .obj fs =>
        (fs.mapM (fun p =>
          if p.1 == "$and" || p.1 == "$or" || p.1 == "$nor" ||
              p.1 == "$where" then
            .error ("Invalid query operator '" ++ p.1 ++ "' detected")
          else compileField1 p.1 p.2)).map List.flatten
    | _ => .error "Criteria must be of type Object"

/-- File 1's `new Mingo.Query(criteria, projection)`. -/
def mkQuery1 (criteria : Val) (projection : Val) : Except String MQuery :=
  (queryCompile1 criteria).map (fun ps => ⟨criteria, projection, ps⟩)

/-- File 1's `Query.test(obj)`. -/
def queryTest1 (q : MQuery) (obj : Val) : Bool :=
  q.compiled.all (fun p => predTest1 p obj)

/-- The `_operators` map accumulated by a cursor's `sort`/`skip`/`limit`
calls (each `Object.assign` overwrites the single key it sets). -/
structure CursorOps where
  sort : Option (List (String × Val)) := none
  skip : Option ℚ := none
  limit : Option ℚ := none
  project : Option (List (String × Val)) := none

/-- One caller invocation on a cursor. -/
inductive CursorCall where
  | skip (n : ℚ)
  | limit (n : ℚ)
  | sort (spec : List (String × Val))

/-- `Object.assign(this._operators, {'$op': value})`. -/
def applyCall (ops : CursorOps) : CursorCall → CursorOps
  | .skip n => { ops with skip := some n }
  | .limit n => { ops with limit := some n }
  | .sort spec => { ops with sort := some spec }

/-- `Cursor._fetch`: inject the projection operator, filter the collection
with the query's test, then build the internal pipeline by walking the fixed
list `['$sort', '$skip', '$limit', '$project']` and run it. -/
def cursorFetch (collection : List Val) (q : MQuery)
    (projection : Option (List (String × Val))) (ops : CursorOps) :
    Except String (List Val) :=
  let ops := match projection with
    | some pr => { ops with project := some pr }
    | none => ops
  let filtered := collection.filter (queryTest q)
  let pipeline :=
    (match ops.sort with | some s => [Stage.sort s] | none => []) ++
    (match ops.skip with | some n => [Stage.skip n] | none => []) ++
    (match ops.limit with | some n => [Stage.limit n] | none => []) ++
    (match ops.project with | some pr => [Stage.project pr] | none => [])
  aggregate filtered pipeline

/-- `Query.find(collection, projection).all()`: the cursor's projection
defaults to the query's own, and `all` materializes via `_fetch`. -/
def queryFind (q : MQuery) (collection : List Val)
    (projection : Option (List (String × Val))) : Except String (List Val) :=
  cursorFetch collection q
    (match projection with
     | some pr => some pr
     | none => (match q.projection with | .obj fs => some fs | _ => none))
    {}

/-- `Mingo.find(collection, criteria, projection).all()`. -/
def mingoFind (collection : List Val) (criteria : Val)
    (projection : Option (List (String × Val))) : Except String (List Val) := do
  let q ← mkQuery criteria .undef
  queryFind q collection projection

instance {ε α : Type} [DecidableEq ε] [DecidableEq α] :
    DecidableEq (Except ε α) := fun a b =>
  match a, b with
  | .ok x, .ok y => decidable_of_iff (x = y) (by simp)
  | .error x, .error y => decidable_of_iff (x = y) (by simp)
  | .ok _, .error _ => isFalse (by simp)
  | .error _, .ok _ => isFalse (by simp)

/-! ### A stable-sort toolbox for the analysis of `$sort` -/

/-- The weak order pulled back from a rational key. -/
def leF {α : Type} (g : α → ℚ) (a b : α) : Prop := g a ≤ g b

instance {α : Type} (g : α → ℚ) : DecidableRel (leF g) :=
  fun a b => inferInstanceAs (Decidable (g a ≤ g b))

instance {α : Type} (g : α → ℚ) : IsTrans α (leF g) :=
  ⟨fun _ _ _ h1 h2 => le_trans h1 h2⟩

instance {α : Type} (g : α → ℚ) : IsTotal α (leF g) :=
  ⟨fun _ _ => le_total _ _⟩

/-- The lexicographic weak order through a list of rational keys (head most
significant). -/
def lexLe {α : Type} : List (α → ℚ) → α → α → Prop
  | [], _, _ => True
  | g :: fs, a, b => g a < g b ∨ (g a = g b ∧ lexLe fs a b)

instance lexLe.instDecidableRel {α : Type} :
    (fs : List (α → ℚ)) → DecidableRel (lexLe fs)
  | [] => fun _ _ => isTrue True.intro
  | g :: fs => fun a b =>
      haveI := lexLe.instDecidableRel fs
      inferInstanceAs (Decidable (g a < g b ∨ (g a = g b ∧ lexLe fs a b)))

theorem lexLe_trans {α : Type} :
    ∀ (fs : List (α → ℚ)) (a b c : α),
      lexLe fs a b → lexLe fs b c → lexLe fs a c
  | [], _, _, _, _, _ => True.intro
  | g :: fs, a, b, c, hab, hbc => by
      rcases hab with h | ⟨he, hab⟩ <;> rcases hbc with h2 | ⟨he2, hbc⟩
      · exact Or.inl (lt_trans h h2)
      · exact Or.inl (he2 ▸ h)
      · exact Or.inl (he ▸ h2)
      · exact Or.inr ⟨he.trans he2, lexLe_trans fs a b c hab hbc⟩

theorem lexLe_total {α : Type} :
    ∀ (fs : List (α → ℚ)) (a b : α), lexLe fs a b ∨ lexLe fs b a
  | [], _, _ => Or.inl True.intro
  | g :: fs, a, b => by
      rcases lt_trichotomy (g a) (g b) with h | h | h
      · exact Or.inl (Or.inl h)
      · rcases lexLe_total fs a b with ht | ht
        · exact Or.inl (Or.inr ⟨h, ht⟩)
        · exact Or.inr (Or.inr ⟨h.symm, ht⟩)
      · exact Or.inr (Or.inl h)

instance {α : Type} (fs : List (α → ℚ)) : IsTrans α (lexLe fs) :=
  ⟨fun a b c => lexLe_trans fs a b c⟩

instance {α : Type} (fs : List (α → ℚ)) : IsTotal α (lexLe fs) :=
  ⟨lexLe_total fs⟩

theorem lexLe_cons_le {α : Type} {g : α → ℚ} {fs : List (α → ℚ)} {a b : α}
    (h : lexLe (g :: fs) a b) : g a ≤ g b :=
  h.elim le_of_lt (fun hp => le_of_eq hp.1)

theorem insertionSort_lexLe_nil {α : Type} (l : List α) :
    l.insertionSort (lexLe []) = l :=
  List.Sorted.insertionSort_eq (by
    induction l with
    | nil => exact List.sorted_nil
    | cons x t ih => exact List.sorted_cons.mpr ⟨fun b _ => True.intro, ih⟩)

theorem orderedInsert_congr {α : Type} (r s : α → α → Prop)
    [DecidableRel r] [DecidableRel s] (x : α) :
    ∀ (l : List α), (∀ z ∈ l, r x z ↔ s x z) →
      List.orderedInsert r x l = List.orderedInsert s x l
  | [], _ => rfl
  | y :: t, h => by
      simp only [List.orderedInsert]
      by_cases hr : r x y
      · rw [if_pos hr, if_pos ((h y (by simp)).mp hr)]
      · rw [if_neg hr, if_neg (fun hs => hr ((h y (by simp)).mpr hs)),
          orderedInsert_congr r s x t (fun z hz => h z (by simp [hz]))]

theorem orderedInsert_comm {α : Type} (g : α → ℚ) (fs : List (α → ℚ))
    (x y : α) (hxy : ¬ lexLe fs x y) :
    ∀ (L : List α),
      List.orderedInsert (leF g) y (List.orderedInsert (lexLe (g :: fs)) x L) =
      List.orderedInsert (lexLe (g :: fs)) x (List.orderedInsert (leF g) y L)
  | [] => by
      simp only [List.orderedInsert]
      rcases le_or_lt (g y) (g x) with h | h
      · rw [if_pos (show leF g y x from h), if_neg (fun hl : lexLe (g :: fs) x y =>
          hl.elim (fun hlt => absurd hlt (not_lt.mpr h))
            (fun hp => absurd hp.2 hxy))]
      · rw [if_neg (show ¬ leF g y x from not_le.mpr h),
          if_pos (show lexLe (g :: fs) x y from Or.inl h)]
  | z :: t => by
      by_cases hx : lexLe (g :: fs) x z <;> by_cases hy : leF g y z
      · -- x and y both insert before z
        rw [show List.orderedInsert (lexLe (g :: fs)) x (z :: t) =
            x :: z :: t from by rw [List.orderedInsert, if_pos hx]]
        rw [show List.orderedInsert (leF g) y (z :: t) =
            y :: z :: t from by rw [List.orderedInsert, if_pos hy]]
        rcases le_or_lt (g y) (g x) with h | h
        · rw [show List.orderedInsert (leF g) y (x :: z :: t) =
              y :: x :: z :: t from by
            rw [List.orderedInsert, if_pos (show leF g y x from h)]]
          rw [show List.orderedInsert (lexLe (g :: fs)) x (y :: z :: t) =
              y :: List.orderedInsert (lexLe (g :: fs)) x (z :: t) from by
            rw [List.orderedInsert, if_neg (fun hl : lexLe (g :: fs) x y =>
              hl.elim (fun hlt => absurd hlt (not_lt.mpr h))
                (fun hp => absurd hp.2 hxy))]]
          rw [List.orderedInsert, if_pos hx]
        · rw [show List.orderedInsert (leF g) y (x :: z :: t) =
              x :: List.orderedInsert (leF g) y (z :: t) from by
            rw [List.orderedInsert, if_neg (show ¬ leF g y x from not_le.mpr h)]]
          rw [List.orderedInsert, if_pos hy]
          rw [show List.orderedInsert (lexLe (g :: fs)) x (y :: z :: t) =
              x :: y :: z :: t from by
            rw [List.orderedInsert,
              if_pos (show lexLe (g :: fs) x y from Or.inl h)]]
      · -- x before z, y after z: then g x ≤ g z < g y
        have hxz : g x ≤ g z := lexLe_cons_le hx
        have hzy : g z < g y := not_le.mp hy
        rw [show List.orderedInsert (lexLe (g :: fs)) x (z :: t) =
            x :: z :: t from by rw [List.orderedInsert, if_pos hx]]
        rw [show List.orderedInsert (leF g) y (x :: z :: t) =
            x :: List.orderedInsert (leF g) y (z :: t) from by
          rw [List.orderedInsert,
            if_neg (show ¬ leF g y x from
              not_le.mpr (lt_of_le_of_lt hxz hzy))]]
        rw [show List.orderedInsert (leF g) y (z :: t) =
            z :: List.orderedInsert (leF g) y t from by
          rw [List.orderedInsert, if_neg hy]]
        rw [show List.orderedInsert (lexLe (g :: fs)) x
              (z :: List.orderedInsert (leF g) y t) =
            x :: z :: List.orderedInsert (leF g) y t from by
          rw [List.orderedInsert, if_pos hx]]
      · -- x after z, y before z: then g y ≤ g z ≤ g x
        have hzx : g z ≤ g x := by
          rcases le_or_lt (g z) (g x) with h | h
          · exact h
          · exact absurd (Or.inl h) hx
        rw [show List.orderedInsert (leF g) y (z :: t) =
            y :: z :: t from by rw [List.orderedInsert, if_pos hy]]
        rw [show List.orderedInsert (lexLe (g :: fs)) x (y :: z :: t) =
            y :: List.orderedInsert (lexLe (g :: fs)) x (z :: t) from by
          rw [List.orderedInsert, if_neg (fun hl : lexLe (g :: fs) x y =>
            hl.elim
              (fun hlt => absurd hlt (not_lt.mpr (le_trans hy hzx)))
              (fun hp => absurd hp.2 hxy))]]
        rw [show List.orderedInsert (lexLe (g :: fs)) x (z :: t) =
            z :: List.orderedInsert (lexLe (g :: fs)) x t from by
          rw [List.orderedInsert, if_neg hx]]
        rw [show List.orderedInsert (leF g) y
              (z :: List.orderedInsert (lexLe (g :: fs)) x t) =
            y :: z :: List.orderedInsert (lexLe (g :: fs)) x t from by
          rw [List.orderedInsert, if_pos hy]]
      · -- both after z: recurse
        rw [show List.orderedInsert (lexLe (g :: fs)) x (z :: t) =
            z :: List.orderedInsert (lexLe (g :: fs)) x t from by
          rw [List.orderedInsert, if_neg hx]]
        rw [show List.orderedInsert (leF g) y (z :: t) =
            z :: List.orderedInsert (leF g) y t from by
          rw [List.orderedInsert, if_neg hy]]
        rw [show List.orderedInsert (leF g) y
              (z :: List.orderedInsert (lexLe (g :: fs)) x t) =
            z :: List.orderedInsert (leF g) y
              (List.orderedInsert (lexLe (g :: fs)) x t) from by
          rw [List.orderedInsert, if_neg hy]]
        rw [show List.orderedInsert (lexLe (g :: fs)) x
              (z :: List.orderedInsert (leF g) y t) =
            z :: List.orderedInsert (lexLe (g :: fs)) x
              (List.orderedInsert (leF g) y t) from by
          rw [List.orderedInsert, if_neg hx]]
        rw [orderedInsert_comm g fs x y hxy t]

theorem insertionSort_orderedInsert {α : Type} (g : α → ℚ) (fs : List (α → ℚ))
    (x : α) :
    ∀ (l : List α), l.Sorted (lexLe fs) →
      List.insertionSort (leF g) (List.orderedInsert (lexLe fs) x l) =
      List.orderedInsert (lexLe (g :: fs)) x (List.insertionSort (leF g) l)
  | [], _ => by
      simp only [List.orderedInsert, List.insertionSort]
  | y :: m, hs => by
      have hsm : m.Sorted (lexLe fs) := (List.sorted_cons.mp hs).2
      by_cases hxy : lexLe fs x y
      · rw [List.orderedInsert, if_pos hxy]
        rw [show List.insertionSort (leF g) (x :: y :: m) =
            List.orderedInsert (leF g) x
              (List.insertionSort (leF g) (y :: m)) from rfl]
        apply orderedInsert_congr
        intro z hz
        have hz2 : z ∈ y :: m := (List.mem_insertionSort _).mp hz
        have hxz : lexLe fs x z := by
          rcases List.mem_cons.mp hz2 with rfl | hz3
          · exact hxy
          · exact lexLe_trans fs x y z hxy ((List.sorted_cons.mp hs).1 z hz3)
        constructor
        · intro hle
          rcases lt_or_eq_of_le hle with h | h
          · exact Or.inl h
          · exact Or.inr ⟨h, hxz⟩
        · exact lexLe_cons_le
      · rw [List.orderedInsert, if_neg hxy]
        rw [show List.insertionSort (leF g)
              (y :: List.orderedInsert (lexLe fs) x m) =
            List.orderedInsert (leF g) y
              (List.insertionSort (leF g)
                (List.orderedInsert (lexLe fs) x m)) from rfl]
        rw [insertionSort_orderedInsert g fs x m hsm]
        rw [orderedInsert_comm g fs x y hxy]
        rfl

theorem insertionSort_insertionSort {α : Type} (g : α → ℚ)
    (fs : List (α → ℚ)) :
    ∀ (xs : List α),
      List.insertionSort (leF g) (List.insertionSort (lexLe fs) xs) =
      List.insertionSort (lexLe (g :: fs)) xs
  | [] => rfl
  | x :: t => by
      rw [show List.insertionSort (lexLe fs) (x :: t) =
          List.orderedInsert (lexLe fs) x
            (List.insertionSort (lexLe fs) t) from rfl]
      rw [insertionSort_orderedInsert g fs x _
        (List.sorted_insertionSort _ t)]
      rw [insertionSort_insertionSort g fs t]
      rfl

theorem pairwise_of_mem {α : Type} {R : α → α → Prop} :
    ∀ (l : List α), (∀ a ∈ l, ∀ b ∈ l, R a b) → l.Pairwise R
  | [], _ => .nil
  | x :: t, h =>
      .cons (fun b hb => h x (by simp) b (by simp [hb]))
        (pairwise_of_mem t (fun a ha b hb => h a (by simp [ha]) b (by simp [hb])))

theorem insertionSort_filter_fiber {α : Type} (g : α → ℚ) (q : ℚ)
    (ys : List α) :
    (List.insertionSort (leF g) ys).filter (fun d => g d == q) =
      ys.filter (fun d => g d == q) := by
  have hpw : (ys.filter (fun d => g d == q)).Pairwise (leF g) := by
    apply pairwise_of_mem
    intro a ha b hb
    have ha2 : g a = q := by simpa using (List.mem_filter.mp ha).2
    have hb2 : g b = q := by simpa using (List.mem_filter.mp hb).2
    exact le_of_eq (ha2.trans hb2.symm)
  have hsub : List.Sublist (ys.filter (fun d => g d == q))
      (List.insertionSort (leF g) ys) :=
    List.sublist_insertionSort hpw (List.filter_sublist ys)
  have hsub2 : List.Sublist (ys.filter (fun d => g d == q))
      ((List.insertionSort (leF g) ys).filter (fun d => g d == q)) := by
    have := hsub.filter (fun d => g d == q)
    simpa only [List.filter_filter, Bool.and_self] using this
  have hperm : List.Perm
      ((List.insertionSort (leF g) ys).filter (fun d => g d == q))
      (ys.filter (fun d => g d == q)) :=
    (List.perm_insertionSort (leF g) ys).filter _
  exact (hsub2.eq_of_length hperm.length_eq.symm).symm

theorem sorted_filter_fiber_unique {α : Type} (g : α → ℚ) :
    ∀ (L1 L2 : List α), List.Perm L1 L2 →
      L1.Sorted (leF g) → L2.Sorted (leF g) →
      (∀ q : ℚ, L1.filter (fun d => g d == q) =
        L2.filter (fun d => g d == q)) →
      L1 = L2
  | [], L2, hp, _, _, _ => hp.nil_eq
  | x :: t1, [], hp, _, _, _ => absurd hp.symm (by simp)
  | x :: t1, y :: t2, hp, hs1, hs2, hfil => by
      have hgx : (g x == g x) = true := by simp
      have hxy : x = y := by
        have hgyx : g y = g x := by
          by_contra hne
          have h1 := hfil (g x)
          rw [show (x :: t1).filter (fun d => g d == g x) =
                x :: t1.filter (fun d => g d == g x) from
              List.filter_cons_of_pos hgx,
            show (y :: t2).filter (fun d => g d == g x) =
                t2.filter (fun d => g d == g x) from
              List.filter_cons_of_neg (by simpa using hne)] at h1
          have hxmem : x ∈ t2.filter (fun d => g d == g x) := by
            rw [← h1]; simp
          have hxt2 : x ∈ t2 := (List.mem_filter.mp hxmem).1
          have hyx : g y ≤ g x := (List.sorted_cons.mp hs2).1 x hxt2
          have hymem : y ∈ x :: t1 := hp.symm.subset (by simp)
          have hxyle : g x ≤ g y := by
            rcases List.mem_cons.mp hymem with rfl | hyt1
            · rfl
            · exact (List.sorted_cons.mp hs1).1 y hyt1
          exact hne (le_antisymm hyx hxyle)
        have h1 := hfil (g x)
        rw [show (x :: t1).filter (fun d => g d == g x) =
              x :: t1.filter (fun d => g d == g x) from
            List.filter_cons_of_pos hgx,
          show (y :: t2).filter (fun d => g d == g x) =
              y :: t2.filter (fun d => g d == g x) from
            List.filter_cons_of_pos (by simpa using hgyx)] at h1
        exact (List.cons.injEq _ _ _ _ ▸ h1).1
      subst hxy
      have htperm : List.Perm t1 t2 := hp.cons_inv
      have hfil2 : ∀ q : ℚ, t1.filter (fun d => g d == q) =
          t2.filter (fun d => g d == q) := by
        intro q
        have h1 := hfil q
        by_cases hq : (g x == q) = true
        · rw [show (x :: t1).filter (fun d => g d == q) =
                x :: t1.filter (fun d => g d == q) from
              List.filter_cons_of_pos hq,
            show (x :: t2).filter (fun d => g d == q) =
                x :: t2.filter (fun d => g d == q) from
              List.filter_cons_of_pos hq] at h1
          exact (List.cons.injEq _ _ _ _ ▸ h1).2
        · rw [show (x :: t1).filter (fun d => g d == q) =
                t1.filter (fun d => g d == q) from
              List.filter_cons_of_neg (by simpa using hq),
            show (x :: t2).filter (fun d => g d == q) =
                t2.filter (fun d => g d == q) from
              List.filter_cons_of_neg (by simpa using hq)] at h1
          exact h1
      rw [sorted_filter_fiber_unique g t1 t2 htperm
        (List.sorted_cons.mp hs1).2 (List.sorted_cons.mp hs2).2 hfil2]

/-- Concatenation of blocks (`[].concat(...)` over a list of groups). -/
def catMap {α β : Type} (h : α → List β) : List α → List β
  | [] => []
  | x :: t => h x ++ catMap h t

theorem mem_catMap {α β : Type} (h : α → List β) (x : β) :
    ∀ (l : List α), x ∈ catMap h l ↔ ∃ a ∈ l, x ∈ h a
  | [] => by simp [catMap]
  | a :: t => by
      simp only [catMap, List.mem_append, mem_catMap h x t, List.mem_cons]
      constructor
      · rintro (hx | ⟨b, hb, hx⟩)
        · exact ⟨a, Or.inl rfl, hx⟩
        · exact ⟨b, Or.inr hb, hx⟩
      · rintro ⟨b, rfl | hb, hx⟩
        · exact Or.inl hx
        · exact Or.inr ⟨b, hb, hx⟩

theorem filter_catMap {α β : Type} (h : α → List β) (p : β → Bool) :
    ∀ (l : List α),
      (catMap h l).filter p = catMap (fun a => (h a).filter p) l
  | [] => rfl
  | a :: t => by
      simp only [catMap, List.filter_append, filter_catMap h p t]

theorem count_catMap {β : Type} [DecidableEq β] (x : β) :
    ∀ {α : Type} (h : α → List β) (l : List α),
      (catMap h l).count x = (l.map (fun a => (h a).count x)).sum
  | _, h, [] => rfl
  | _, h, a :: t => by
      simp only [catMap, List.count_append, List.map_cons, List.sum_cons,
        count_catMap x h t]

theorem catMap_nil_of_all_nil {α β : Type} (h : α → List β) :
    ∀ (l : List α), (∀ a ∈ l, h a = []) → catMap h l = []
  | [], _ => rfl
  | a :: t, hall => by
      simp only [catMap, hall a (by simp),
        catMap_nil_of_all_nil h t (fun b hb => hall b (by simp [hb])),
        List.nil_append]

/-! ### Characterisation of `$sort` -/

/-- The rational carried by a numeric value (0 elsewhere; used only on
values known to be rational numbers). -/
def numQ : Val → ℚ
  | .num (.rat q) => q
  | _ => 0

/-- Whether a value is a (non-NaN) number. -/
def isRatNum : Val → Bool
  | .num (.rat _) => true
  | _ => false

theorem isRatNum_iff (v : Val) :
    isRatNum v = true ↔ ∃ q : ℚ, v = Val.num (.rat q) := by
  cases v with
  | num n =>
      cases n with
      | nan => simp [isRatNum]
      | rat q => simp [isRatNum]
  | null => simp [isRatNum]
  | undef => simp [isRatNum]
  | bool b => simp [isRatNum]
  | str s => simp [isRatNum]
  | arr xs => simp [isRatNum]
  | obj fs => simp [isRatNum]

/-- Negate for a descending direction. -/
def dirQ (desc : Bool) (q : ℚ) : ℚ := if desc then -q else q

theorem dirQ_inj (desc : Bool) {a b : ℚ} (h : dirQ desc a = dirQ desc b) :
    a = b := by
  cases desc <;> simpa [dirQ] using h

/-- The rational sort key of one `$sort` pass. -/
def passKey (k : String) (desc : Bool) (d : Val) : ℚ :=
  dirQ desc (numQ (resolve d k false))

/-- One step of `groupBy`'s key accumulation. -/
def hkStep (f : Val → Val) (acc : List Val) (d : Val) : List Val :=
  if acc.any (fun kv => hashcode kv == hashcode (f d)) then acc
  else acc ++ [f d]

/-- The key list produced by `groupBy`. -/
def hashKeysOf (f : Val → Val) (ys : List Val) : List Val :=
  ys.foldl (hkStep f) []

/-- The (hash, index) lookup table of `groupBy`. -/
def hashIdxAux : List Val → ℕ → List (ℤ × ℕ)
  | [], _ => []
  | v :: vs, n => (hashcode v, n) :: hashIdxAux vs (n + 1)

/-- The sequence of `$sort` passes, most significant key first (the source
iterates the reversed key list, so the first declared key is sorted last). -/
def passChain (xs : List Val) : List (String × Bool) → List Val
  | [] => xs
  | (k, desc) :: rest => sortPass (passChain xs rest) k (desc)

theorem jsLt_rat (a b : ℚ) :
    jsLt (Val.num (.rat a)) (Val.num (.rat b)) = decide (a < b) := rfl

theorem jsGt_rat (a b : ℚ) :
    jsGt (Val.num (.rat a)) (Val.num (.rat b)) = decide (b < a) := rfl

theorem hashIdxAux_append (a : Val) :
    ∀ (K : List Val) (n : ℕ),
      hashIdxAux (K ++ [a]) n = hashIdxAux K n ++ [(hashcode a, n + K.length)]
  | [], n => by simp [hashIdxAux]
  | v :: vs, n => by
      rw [List.cons_append,
        show hashIdxAux (v :: (vs ++ [a])) n =
          (hashcode v, n) :: hashIdxAux (vs ++ [a]) (n + 1) from rfl,
        hashIdxAux_append a vs (n + 1),
        show hashIdxAux (v :: vs) n =
          (hashcode v, n) :: hashIdxAux vs (n + 1) from rfl]
      simp only [List.cons_append, List.length_cons]
      rw [show n + 1 + vs.length = n + (vs.length + 1) from by omega]

theorem lookupIdx_none (h : ℤ) :
    ∀ (K : List Val) (n : ℕ), (∀ kv ∈ K, hashcode kv ≠ h) →
      lookupIdx (hashIdxAux K n) h = none
  | [], _, _ => rfl
  | v :: vs, n, hall => by
      rw [hashIdxAux, lookupIdx,
        if_neg (by simpa using hall v (by simp)),
        lookupIdx_none h vs (n + 1) (fun kv hkv => hall kv (by simp [hkv]))]

theorem nodup_hash_get {K : List Val} (hnd : (K.map hashcode).Nodup)
    {j1 j2 : ℕ} (hj1 : j1 < K.length) (hj2 : j2 < K.length)
    (he : hashcode (K.get ⟨j1, hj1⟩) = hashcode (K.get ⟨j2, hj2⟩)) :
    j1 = j2 := by
  have hinj := List.nodup_iff_injective_get.mp hnd
  have h1 : (K.map hashcode).get ⟨j1, by simpa using hj1⟩ =
      (K.map hashcode).get ⟨j2, by simpa using hj2⟩ := by
    simpa [List.get_map] using he
  simpa using congrArg Fin.val (hinj h1)

theorem lookupIdx_some (h : ℤ) :
    ∀ (K : List Val), (K.map hashcode).Nodup →
      ∀ (a : Val), a ∈ K → hashcode a = h →
      ∀ n, ∃ j, ∃ hj : j < K.length, K.get ⟨j, hj⟩ = a ∧
        lookupIdx (hashIdxAux K n) h = some (n + j)
  | [], _, a, ha, _, _ => absurd ha (by simp)
  | v :: vs, hnd, a, ha, hha, n => by
      by_cases hv : hashcode v = h
      · have hav : a = v := by
          rcases List.mem_cons.mp ha with rfl | havs
          · rfl
          · exfalso
            have : hashcode a ∈ vs.map hashcode := List.mem_map_of_mem _ havs
            rw [hha, ← hv] at this
            exact (List.nodup_cons.mp (by simpa using hnd)).1 this
        refine ⟨0, by simp, hav.symm, ?_⟩
        rw [hashIdxAux, lookupIdx, if_pos (by simpa using hv)]
        simp
      · have havs : a ∈ vs := by
          rcases List.mem_cons.mp ha with rfl | havs
          · exact absurd hha hv
          · exact havs
        obtain ⟨j, hj, hget, hlk⟩ := lookupIdx_some h vs
          (List.nodup_cons.mp (by simpa using hnd)).2 a havs hha (n + 1)
        refine ⟨j + 1, by simpa using Nat.succ_lt_succ hj, hget, ?_⟩
        rw [hashIdxAux, lookupIdx, if_neg (by simpa using hv), hlk]
        rw [show n + 1 + j = n + (j + 1) from by omega]

theorem sortedIndexAux_nomatch (h : ℤ) :
    ∀ (K : List Val) (n : ℕ) (acc : Option ℕ),
      (∀ kv ∈ K, hashcode kv ≠ h) → sortedIndexAux h K n acc = acc
  | [], _, _, _ => rfl
  | v :: vs, n, acc, hall => by
      rw [sortedIndexAux, if_neg (by simpa using hall v (by simp)),
        sortedIndexAux_nomatch h vs (n + 1) acc
          (fun kv hkv => hall kv (by simp [hkv]))]

theorem sortedIndexAux_spec :
    ∀ (K : List Val), (K.map hashcode).Nodup →
      ∀ (a : Val), a ∈ K →
      ∀ n, ∃ j, ∃ hj : j < K.length, K.get ⟨j, hj⟩ = a ∧
        sortedIndexAux (hashcode a) K n none = some (n + j)
  | [], _, a, ha, _ => absurd ha (by simp)
  | v :: vs, hnd, a, ha, n => by
      by_cases hv : hashcode v = hashcode a
      · have hav : a = v := by
          rcases List.mem_cons.mp ha with rfl | havs
          · rfl
          · exfalso
            have : hashcode a ∈ vs.map hashcode := List.mem_map_of_mem _ havs
            rw [← hv] at this
            exact (List.nodup_cons.mp (by simpa using hnd)).1 this
        refine ⟨0, by simp, hav.symm, ?_⟩
        have hnm : ∀ kv ∈ vs, hashcode kv ≠ hashcode a := by
          intro kv hkv he
          have : hashcode kv ∈ vs.map hashcode := List.mem_map_of_mem _ hkv
          rw [he, ← hv] at this
          exact (List.nodup_cons.mp (by simpa using hnd)).1 this
        rw [sortedIndexAux, if_pos (by simpa using hv),
          sortedIndexAux_nomatch _ vs (n + 1) (some n) hnm]
        simp
      · have havs : a ∈ vs := by
          rcases List.mem_cons.mp ha with rfl | havs
          · exact absurd rfl hv
          · exact havs
        obtain ⟨j, hj, hget, hlk⟩ := sortedIndexAux_spec vs
          (List.nodup_cons.mp (by simpa using hnd)).2 a havs (n + 1)
        refine ⟨j + 1, by simpa using Nat.succ_lt_succ hj, hget, ?_⟩
        rw [sortedIndexAux, if_neg (by simpa using hv), hlk]
        rw [show n + 1 + j = n + (j + 1) from by omega]

theorem skLookup_buildSortKeysAux :
    ∀ (K : List Val), (K.map hashcode).Nodup →
      ∀ (a : Val), a ∈ K →
      ∀ n, ∃ i, skLookup (buildSortKeysAux K n) (hashcode a) = (a, i)
  | [], _, a, ha, _ => absurd ha (by simp)
  | v :: vs, hnd, a, ha, n => by
      by_cases hv : hashcode v = hashcode a
      · have hav : a = v := by
          rcases List.mem_cons.mp ha with rfl | havs
          · rfl
          · exfalso
            have : hashcode a ∈ vs.map hashcode := List.mem_map_of_mem _ havs
            rw [← hv] at this
            exact (List.nodup_cons.mp (by simpa using hnd)).1 this
        subst hav
        exact ⟨n, by rw [buildSortKeysAux, skLookup, if_pos (by simpa using hv)]⟩
      · have havs : a ∈ vs := by
          rcases List.mem_cons.mp ha with rfl | havs
          · exact absurd rfl hv
          · exact havs
        obtain ⟨i, hi⟩ := skLookup_buildSortKeysAux vs
          (List.nodup_cons.mp (by simpa using hnd)).2 a havs (n + 1)
        exact ⟨i, by rw [buildSortKeysAux, skLookup, if_neg (by simpa using hv), hi]⟩

theorem foldl_append_eq_catMap {α β : Type} (h : α → List β) :
    ∀ (l : List α) (acc : List β),
      l.foldl (fun a x => a ++ h x) acc = acc ++ catMap h l
  | [], acc => by simp [catMap]
  | x :: t, acc => by
      simp only [List.foldl_cons, catMap, foldl_append_eq_catMap h t,
        List.append_assoc]

theorem catMap_congr {α β : Type} (h1 h2 : α → List β) :
    ∀ (l : List α), (∀ a ∈ l, h1 a = h2 a) → catMap h1 l = catMap h2 l
  | [], _ => rfl
  | x :: t, hc => by
      simp only [catMap, hc x (by simp),
        catMap_congr h1 h2 t (fun a ha => hc a (by simp [ha]))]

theorem hashKeysOf_append (f : Val → Val) (ys : List Val) (d : Val) :
    hashKeysOf f (ys ++ [d]) = hkStep f (hashKeysOf f ys) d := by
  simp [hashKeysOf, List.foldl_append]

theorem hashKeys_nodup_aux (f : Val → Val) :
    ∀ (ys : List Val) (acc : List Val), (acc.map hashcode).Nodup →
      ((ys.foldl (hkStep f) acc).map hashcode).Nodup
  | [], _, h => h
  | d :: ys, acc, h => by
      rw [List.foldl_cons]
      apply hashKeys_nodup_aux f ys
      unfold hkStep
      by_cases hany : acc.any (fun kv => hashcode kv == hashcode (f d)) = true
      · rw [if_pos hany]; exact h
      · rw [if_neg hany, List.map_append]
        refine List.Nodup.append h (by simp) ?_
        intro x hx hx2
        have hx3 : x = hashcode (f d) := by simpa using hx2
        subst hx3
        obtain ⟨kv, hkv, hkve⟩ := List.mem_map.mp hx
        simp only [List.any_eq_true, not_exists, not_and] at hany
        exact absurd (by simpa using hkve) (by simpa using hany kv hkv)

theorem hashKeys_nodup (f : Val → Val) (ys : List Val) :
    ((hashKeysOf f ys).map hashcode).Nodup :=
  hashKeys_nodup_aux f ys [] (by simp)

theorem hkFold_mem_mono (f : Val → Val) :
    ∀ (ys : List Val) (acc : List Val) (x : Val), x ∈ acc →
      x ∈ ys.foldl (hkStep f) acc
  | [], _, _, hx => hx
  | d :: ys, acc, x, hx => by
      rw [List.foldl_cons]
      apply hkFold_mem_mono f ys
      unfold hkStep
      split
      · exact hx
      · exact List.mem_append_left _ hx

theorem hashKeys_cover_aux (f : Val → Val) :
    ∀ (ys : List Val) (acc : List Val) (d : Val), d ∈ ys →
      ∃ kv ∈ ys.foldl (hkStep f) acc, hashcode (f d) = hashcode kv
  | [], _, d, hd => absurd hd (by simp)
  | d0 :: ys, acc, d, hd => by
      rcases List.mem_cons.mp hd with rfl | hd2
      · rw [List.foldl_cons]
        unfold hkStep
        by_cases hany : acc.any (fun kv => hashcode kv == hashcode (f d)) = true
        · rw [if_pos hany]
          obtain ⟨kv, hkv, hkve⟩ := List.any_eq_true.mp hany
          exact ⟨kv, hkFold_mem_mono f ys acc kv hkv,
            Eq.symm (by simpa using hkve)⟩
        · rw [if_neg hany]
          exact ⟨f d, hkFold_mem_mono f ys _ _ (by simp), rfl⟩
      · rw [List.foldl_cons]
        exact hashKeys_cover_aux f ys _ d hd2

theorem hashKeys_cover (f : Val → Val) (ys : List Val) (d : Val) (hd : d ∈ ys) :
    ∃ kv ∈ hashKeysOf f ys, hashcode (f d) = hashcode kv :=
  hashKeys_cover_aux f ys [] d hd

theorem hashKeys_img_aux (f : Val → Val) :
    ∀ (ys : List Val) (acc : List Val) (kv : Val),
      kv ∈ ys.foldl (hkStep f) acc → kv ∈ acc ∨ ∃ d ∈ ys, kv = f d
  | [], _, kv, hkv => Or.inl hkv
  | d :: ys, acc, kv, hkv => by
      rw [List.foldl_cons] at hkv
      rcases hashKeys_img_aux f ys _ kv hkv with hacc | ⟨d2, hd2, he⟩
      · unfold hkStep at hacc
        split at hacc
        · exact Or.inl hacc
        · rcases List.mem_append.mp hacc with h | h
          · exact Or.inl h
          · exact Or.inr ⟨d, by simp, by simpa using h⟩
      · exact Or.inr ⟨d2, by simp [hd2], he⟩

theorem hashKeys_img (f : Val → Val) (ys : List Val) (kv : Val)
    (hkv : kv ∈ hashKeysOf f ys) : ∃ d ∈ ys, kv = f d := by
  rcases hashKeys_img_aux f ys [] kv hkv with h | h
  · exact absurd h (by simp)
  · exact h

theorem map_congr_get {α β : Type} (F G : α → β) :
    ∀ (l : List α),
      (∀ j, (hj : j < l.length) → F (l.get ⟨j, hj⟩) = G (l.get ⟨j, hj⟩)) →
      l.map F = l.map G
  | [], _ => rfl
  | x :: t, h => by
      have h0 : F x = G x := h 0 (Nat.succ_pos _)
      have ht : t.map F = t.map G :=
        map_congr_get F G t (fun j hj => h (j + 1) (Nat.succ_lt_succ hj))
      simp only [List.map_cons, h0, ht]

theorem listModifyAt_map {α β : Type} (F G : α → β) (u : β → β) :
    ∀ (l : List α) (i : ℕ) (hi : i < l.length),
      G (l.get ⟨i, hi⟩) = u (F (l.get ⟨i, hi⟩)) →
      (∀ j, (hj : j < l.length) → j ≠ i → G (l.get ⟨j, hj⟩) = F (l.get ⟨j, hj⟩)) →
      listModifyAt u (l.map F) i = l.map G
  | [], i, hi, _, _ => absurd hi (by simp)
  | x :: t, 0, _, hG, hother => by
      simp only [List.map_cons, listModifyAt]
      rw [show u (F x) = G x from hG.symm,
        map_congr_get F G t
          (fun j hj => (hother (j + 1) (Nat.succ_lt_succ hj) (by omega)).symm)]
  | x :: t, i + 1, hi, hG, hother => by
      simp only [List.map_cons, listModifyAt]
      rw [show F x = G x from (hother 0 (by simp) (by omega)).symm,
        listModifyAt_map F G u t i (Nat.lt_of_succ_lt_succ hi) hG
          (fun j hj hne => hother (j + 1) (Nat.succ_lt_succ hj) (by omega))]

theorem groupBy_fold_spec (f : Val → Val) (ys : List Val) :
    (ys.map (fun o => (f o, o))).foldl groupByStep (⟨[], []⟩, []) =
      (⟨hashKeysOf f ys,
        (hashKeysOf f ys).map
          (fun kv => ys.filter (fun d => hashcode (f d) == hashcode kv))⟩,
       hashIdxAux (hashKeysOf f ys) 0) := by
  induction ys using List.reverseRecOn with
  | nil => rfl
  | append_singleton zs d ih =>
      rw [List.map_append, List.foldl_append, ih]
      simp only [List.map_cons, List.map_nil, List.foldl_cons, List.foldl_nil]
      rw [hashKeysOf_append]
      have hnd := hashKeys_nodup f zs
      by_cases hany : (hashKeysOf f zs).any
          (fun kv => hashcode kv == hashcode (f d)) = true
      · obtain ⟨kv0, hkv0, hkv0e⟩ := List.any_eq_true.mp hany
        have hkv0e2 : hashcode kv0 = hashcode (f d) := by simpa using hkv0e
        obtain ⟨j, hj, hget, hlk⟩ := lookupIdx_some (hashcode (f d))
          (hashKeysOf f zs) hnd kv0 hkv0 hkv0e2 0
        have hmain : (zs ++ [d]).filter
              (fun d2 => hashcode (f d2) ==
                hashcode ((hashKeysOf f zs).get ⟨j, hj⟩)) =
            zs.filter (fun d2 => hashcode (f d2) ==
                hashcode ((hashKeysOf f zs).get ⟨j, hj⟩)) ++ [d] := by
          rw [List.filter_append]
          congr 1
          rw [hget]
          simp [hkv0e2]
        have hoth : ∀ j2, (hj2 : j2 < (hashKeysOf f zs).length) → j2 ≠ j →
            (zs ++ [d]).filter
              (fun d2 => hashcode (f d2) ==
                hashcode ((hashKeysOf f zs).get ⟨j2, hj2⟩)) =
            zs.filter (fun d2 => hashcode (f d2) ==
                hashcode ((hashKeysOf f zs).get ⟨j2, hj2⟩)) := by
          intro j2 hj2 hne
          rw [List.filter_append]
          have hneq : hashcode (f d) ≠
              hashcode ((hashKeysOf f zs).get ⟨j2, hj2⟩) := by
            intro he
            apply hne
            apply nodup_hash_get hnd hj2 hj
            rw [← he, hget, hkv0e2]
          have hz : [d].filter (fun d2 => hashcode (f d2) ==
              hashcode ((hashKeysOf f zs).get ⟨j2, hj2⟩)) = [] := by
            simp
            exact hneq
          rw [hz, List.append_nil]
        have hmod := listModifyAt_map
          (fun kv => zs.filter (fun d2 => hashcode (f d2) == hashcode kv))
          (fun kv => (zs ++ [d]).filter
            (fun d2 => hashcode (f d2) == hashcode kv))
          (fun l => l ++ [d]) (hashKeysOf f zs) j hj hmain hoth
        unfold groupByStep hkStep
        rw [if_pos hany]
        simp only [hlk, Nat.zero_add]
        rw [hmod]
      · have hnomatch : ∀ kv ∈ hashKeysOf f zs,
            hashcode kv ≠ hashcode (f d) := by
          simp only [List.any_eq_true, not_exists, not_and] at hany
          intro kv hkv
          simpa using hany kv hkv
        have hKpart : (hashKeysOf f zs).map
            (fun kv => zs.filter
              (fun d2 => hashcode (f d2) == hashcode kv)) =
          (hashKeysOf f zs).map
            (fun kv => (zs ++ [d]).filter
              (fun d2 => hashcode (f d2) == hashcode kv)) := by
          apply List.map_congr_left
          intro kv hkv
          rw [List.filter_append]
          have hz : [d].filter
              (fun d2 => hashcode (f d2) == hashcode kv) = [] := by
            have : hashcode (f d) ≠ hashcode kv :=
              fun he => hnomatch kv hkv he.symm
            simp [this]
          rw [hz, List.append_nil]
        have hNew : (zs ++ [d]).filter
            (fun d2 => hashcode (f d2) == hashcode (f d)) = [d] := by
          rw [List.filter_append]
          have h1 : zs.filter
              (fun d2 => hashcode (f d2) == hashcode (f d)) = [] := by
            rw [List.filter_eq_nil_iff]
            intro d2 hd2
            obtain ⟨kv, hkv, hkve⟩ := hashKeys_cover f zs d2 hd2
            simp only [beq_iff_eq]
            rw [hkve]
            exact hnomatch kv hkv
          rw [h1]
          simp
        unfold groupByStep hkStep
        rw [if_neg hany]
        simp only [lookupIdx_none (hashcode (f d)) (hashKeysOf f zs) 0
          hnomatch]
        rw [hashIdxAux_append, Nat.zero_add]
        rw [List.map_append]
        simp only [List.map_cons, List.map_nil]
        rw [← hKpart, hNew]

theorem groupBy_spec (f : Val → Val) (ys : List Val) :
    groupBy ys f =
      ⟨hashKeysOf f ys,
        (hashKeysOf f ys).map
          (fun kv => ys.filter (fun d => hashcode (f d) == hashcode kv))⟩ := by
  unfold groupBy groupByKeyed
  rw [groupBy_fold_spec f ys]

theorem insertionSort_congr_mem {α : Type} (r s : α → α → Prop)
    [DecidableRel r] [DecidableRel s] :
    ∀ (l : List α), (∀ a ∈ l, ∀ b ∈ l, r a b ↔ s a b) →
      l.insertionSort r = l.insertionSort s
  | [], _ => rfl
  | x :: t, h => by
      rw [show List.insertionSort r (x :: t) =
          List.orderedInsert r x (List.insertionSort r t) from rfl,
        show List.insertionSort s (x :: t) =
          List.orderedInsert s x (List.insertionSort s t) from rfl,
        insertionSort_congr_mem r s t
          (fun a ha b hb => h a (by simp [ha]) b (by simp [hb]))]
      apply orderedInsert_congr
      intro z hz
      exact h x (by simp) z (by simp [(List.mem_insertionSort s).mp hz])

theorem sortByCmp_le_iff (K : List Val) (hnd : (K.map hashcode).Nodup)
    (hrat : ∀ kv ∈ K, ∃ q : ℚ, kv = Val.num (.rat q))
    (a : Val) (ha : a ∈ K) (b : Val) (hb : b ∈ K) :
    (sortByCmp (buildSortKeys K) a b ≤ 0) ↔ numQ a ≤ numQ b := by
  obtain ⟨ia, hia⟩ := skLookup_buildSortKeysAux K hnd a ha 0
  obtain ⟨ib, hib⟩ := skLookup_buildSortKeysAux K hnd b hb 0
  obtain ⟨qa, hqa⟩ := hrat a ha
  obtain ⟨qb, hqb⟩ := hrat b hb
  unfold sortByCmp buildSortKeys
  simp only [hia, hib]
  subst hqa
  subst hqb
  rw [jsLt_rat, jsGt_rat]
  simp only [numQ]
  by_cases h1 : qa < qb
  · simp [h1, le_of_lt h1]
  · by_cases h2 : qb < qa
    · have hd1 : decide (qa < qb) = false := decide_eq_false h1
      have hd2 : decide (qb < qa) = true := decide_eq_true h2
      rw [hd1, hd2]
      simp only [Bool.false_eq_true, if_false, if_true]
      constructor
      · intro h3
        exact absurd h3 (by norm_num)
      · intro h3
        exact absurd h3 (not_le.mpr h2)
    · have heq : qa = qb := le_antisymm (not_lt.mp h2) (not_lt.mp h1)
      subst heq
      have hii : ia = ib := congrArg Prod.snd (hia.symm.trans hib)
      subst hii
      simp

theorem map_clone_id : ∀ (l : List Val), l.map clone = l
  | [] => rfl
  | x :: t => by rw [List.map_cons, clone_eq_id, map_clone_id t]

theorem sortBy_spec (K : List Val) (hnd : (K.map hashcode).Nodup)
    (hrat : ∀ kv ∈ K, ∃ q : ℚ, kv = Val.num (.rat q)) :
    sortBy K = K.insertionSort (leF numQ) := by
  unfold sortBy
  have hclone : K.map clone = K := map_clone_id K
  simp only [hclone]
  apply insertionSort_congr_mem
  intro a ha b hb
  exact sortByCmp_le_iff K hnd hrat a ha b hb

theorem perm_catMap_fibers (f : Val → Val) :
    ∀ (ks : List Val) (ys : List Val), ks.Nodup →
      (∀ d ∈ ys, f d ∈ ks) →
      List.Perm (catMap (fun kv => ys.filter (fun d => f d == kv)) ks) ys
  | [], ys, _, hcov => by
      have hy : ys = [] := by
        cases ys with
        | nil => rfl
        | cons y t => exact absurd (hcov y (by simp)) (by simp)
      simp [hy, catMap]
  | kv :: t, ys, hnd, hcov => by
      simp only [catMap]
      have hblocks : catMap (fun kv2 => ys.filter (fun d => f d == kv2)) t =
          catMap (fun kv2 => (ys.filter (fun d => !(f d == kv))).filter
            (fun d => f d == kv2)) t := by
        apply catMap_congr
        intro kv2 hkv2
        rw [List.filter_filter]
        apply List.filter_congr
        intro d _
        by_cases hde : f d = kv2
        · have hne : kv2 ≠ kv := fun he =>
            (List.nodup_cons.mp hnd).1 (he ▸ hkv2)
          simp [hde, hne]
        · simp [hde]
      rw [hblocks]
      have hcov2 : ∀ d ∈ ys.filter (fun d => !(f d == kv)), f d ∈ t := by
        intro d hd
        obtain ⟨hdy, hdp⟩ := List.mem_filter.mp hd
        have hne : f d ≠ kv := by simpa using hdp
        rcases List.mem_cons.mp (hcov d hdy) with he | h
        · exact absurd he hne
        · exact h
      have hperm := perm_catMap_fibers f t
        (ys.filter (fun d => !(f d == kv)))
        (List.nodup_cons.mp hnd).2 hcov2
      exact (hperm.append_left _).trans (List.filter_append_perm _ ys)

theorem sorted_catMap_blocks (g gv : Val → ℚ) (block : Val → List Val) :
    ∀ (ks : List Val), List.Pairwise (fun a b => gv a < gv b) ks →
      (∀ kv ∈ ks, ∀ d ∈ block kv, g d = gv kv) →
      List.Sorted (leF g) (catMap block ks)
  | [], _, _ => List.sorted_nil
  | kv :: t, hpw, hconst => by
      simp only [catMap]
      show List.Pairwise (leF g) _
      rw [List.pairwise_append]
      refine ⟨?_, ?_, ?_⟩
      · apply pairwise_of_mem
        intro a ha b hb
        exact le_of_eq ((hconst kv (by simp) a ha).trans
          (hconst kv (by simp) b hb).symm)
      · exact sorted_catMap_blocks g gv block t (List.pairwise_cons.mp hpw).2
          (fun kv2 hkv2 d hd => hconst kv2 (by simp [hkv2]) d hd)
      · intro a ha b hb
        obtain ⟨kv2, hkv2, hbkv2⟩ := (mem_catMap block b t).mp hb
        have h1 : g a = gv kv := hconst kv (by simp) a ha
        have h2 : g b = gv kv2 := hconst kv2 (by simp [hkv2]) b hbkv2
        show g a ≤ g b
        rw [h1, h2]
        exact le_of_lt ((List.pairwise_cons.mp hpw).1 kv2 hkv2)

theorem catMap_ite_single (gv : Val → ℚ) (q : ℚ) (block : Val → List Val) :
    ∀ (ks : List Val), (ks.map gv).Nodup →
      catMap (fun kv => if gv kv = q then block kv else []) ks =
        (match ks.find? (fun kv => gv kv == q) with
         | some kv => block kv
         | none => [])
  | [], _ => rfl
  | kv :: t, hnd => by
      simp only [catMap]
      by_cases hq : gv kv = q
      · rw [if_pos hq, List.find?_cons_of_pos _ (by simpa using hq)]
        have hall : ∀ kv2 ∈ t, ¬ (gv kv2 = q) := by
          intro kv2 hkv2 he
          have h1 : gv kv ∈ t.map gv := by
            rw [hq, ← he]
            exact List.mem_map_of_mem _ hkv2
          exact (List.nodup_cons.mp (by simpa using hnd)).1 h1
        rw [catMap_nil_of_all_nil _ t
          (fun kv2 hkv2 => if_neg (hall kv2 hkv2)), List.append_nil]
      · rw [if_neg hq, List.find?_cons_of_neg _ (by simpa using hq),
          catMap_ite_single gv q block t
            (List.nodup_cons.mp (by simpa using hnd)).2]
        simp

theorem bool_eq_of_iff {a b : Bool} (h : a = true ↔ b = true) : a = b := by
  cases a <;> cases b <;> simp_all

theorem nodup_map_inj_on {α β : Type} {F : α → β} :
    ∀ {l : List α}, (l.map F).Nodup → ∀ a ∈ l, ∀ b ∈ l, F a = F b → a = b
  | [], _, a, ha, _, _, _ => absurd ha (by simp)
  | x :: t, hnd, a, ha, b, hb, he => by
      have hhd : F x ∉ t.map F :=
        (List.nodup_cons.mp (by simpa using hnd)).1
      have htl : (t.map F).Nodup :=
        (List.nodup_cons.mp (by simpa using hnd)).2
      rcases List.mem_cons.mp ha with rfl | hat
      · rcases List.mem_cons.mp hb with rfl | hbt
        · rfl
        · exact absurd (he ▸ List.mem_map_of_mem F hbt) hhd
      · rcases List.mem_cons.mp hb with rfl | hbt
        · exact absurd (he ▸ List.mem_map_of_mem F hat) hhd
        · exact nodup_map_inj_on htl a hat b hbt he

theorem sort_core_spec (f : Val → Val) (ys : List Val) (desc : Bool)
    (Hrat : ∀ d ∈ ys, ∃ q : ℚ, f d = Val.num (.rat q))
    (Hinj : ∀ d ∈ ys, ∀ d2 ∈ ys,
      hashcode (f d) = hashcode (f d2) → f d = f d2) :
    (if desc then (sortBy (hashKeysOf f ys)).reverse
      else sortBy (hashKeysOf f ys)).foldl
      (fun acc item =>
        acc ++ (match sortedIndexOf (hashKeysOf f ys) (hashcode item) with
                | some i => ((hashKeysOf f ys).map
                    (fun kv => ys.filter
                      (fun d => hashcode (f d) == hashcode kv))).getD i []
                | none => [])) [] =
      ys.insertionSort (leF (fun d => dirQ desc (numQ (f d)))) := by
  have hnd := hashKeys_nodup f ys
  have hndK : (hashKeysOf f ys).Nodup := hnd.of_map
  have hKrat : ∀ kv ∈ hashKeysOf f ys, ∃ q : ℚ, kv = Val.num (.rat q) := by
    intro kv hkv
    obtain ⟨d, hd, he⟩ := hashKeys_img f ys kv hkv
    obtain ⟨q, hq⟩ := Hrat d hd
    exact ⟨q, he ▸ hq⟩
  have hfk : ∀ d ∈ ys, f d ∈ hashKeysOf f ys := by
    intro d hd
    obtain ⟨kv, hkv, hke⟩ := hashKeys_cover f ys d hd
    obtain ⟨d0, hd0, he0⟩ := hashKeys_img f ys kv hkv
    have : f d = f d0 := Hinj d hd d0 hd0 (by rw [hke, he0])
    rw [this, ← he0]
    exact hkv
  have hvalfib : ∀ kv ∈ hashKeysOf f ys,
      ys.filter (fun d => hashcode (f d) == hashcode kv) =
        ys.filter (fun d => f d == kv) := by
    intro kv hkv
    apply List.filter_congr
    intro d hd
    obtain ⟨d0, hd0, he0⟩ := hashKeys_img f ys kv hkv
    apply bool_eq_of_iff
    simp only [beq_iff_eq]
    constructor
    · intro he
      rw [he0] at he ⊢
      exact Hinj d hd d0 hd0 he
    · intro he
      rw [he]
  rw [sortBy_spec (hashKeysOf f ys) hnd hKrat]
  have hstrictQ : List.Pairwise (fun a b => numQ a < numQ b)
      ((hashKeysOf f ys).insertionSort (leF numQ)) := by
    have hsorted : List.Sorted (leF numQ)
        ((hashKeysOf f ys).insertionSort (leF numQ)) :=
      List.sorted_insertionSort _ _
    have hnodup : ((hashKeysOf f ys).insertionSort (leF numQ)).Nodup :=
      (List.perm_insertionSort _ _).symm.nodup hndK
    refine List.Pairwise.imp_of_mem ?_ (List.Pairwise.and hsorted hnodup)
    intro a b ha hb hab
    obtain ⟨qa, hqa⟩ := hKrat a ((List.mem_insertionSort _).mp ha)
    obtain ⟨qb, hqb⟩ := hKrat b ((List.mem_insertionSort _).mp hb)
    rcases lt_or_eq_of_le hab.1 with h | h
    · exact h
    · exfalso
      apply hab.2
      rw [hqa, hqb] at h ⊢
      simp only [numQ] at h
      rw [h]
  have hstrict : List.Pairwise
      (fun a b => dirQ desc (numQ a) < dirQ desc (numQ b))
      (if desc then ((hashKeysOf f ys).insertionSort (leF numQ)).reverse
        else (hashKeysOf f ys).insertionSort (leF numQ)) := by
    cases desc
    · simpa [dirQ] using hstrictQ
    · rw [if_pos rfl, List.pairwise_reverse]
      refine hstrictQ.imp ?_
      intro a b h
      simp only [dirQ, if_true]
      exact neg_lt_neg h
  have hskperm : List.Perm
      (if desc then ((hashKeysOf f ys).insertionSort (leF numQ)).reverse
        else (hashKeysOf f ys).insertionSort (leF numQ))
      (hashKeysOf f ys) := by
    cases desc
    · simpa using List.perm_insertionSort (leF numQ) (hashKeysOf f ys)
    · simpa using (List.reverse_perm _).trans
        (List.perm_insertionSort (leF numQ) (hashKeysOf f ys))
  rw [foldl_append_eq_catMap, List.nil_append]
  have hblocks : ∀ item ∈ (if desc then
        ((hashKeysOf f ys).insertionSort (leF numQ)).reverse
      else (hashKeysOf f ys).insertionSort (leF numQ)),
      (match sortedIndexOf (hashKeysOf f ys) (hashcode item) with
       | some i => ((hashKeysOf f ys).map
           (fun kv => ys.filter
             (fun d => hashcode (f d) == hashcode kv))).getD i []
       | none => []) = ys.filter (fun d => f d == item) := by
    intro item hitem
    have hitemK : item ∈ hashKeysOf f ys := hskperm.subset hitem
    obtain ⟨j, hj, hget, hsio⟩ :=
      sortedIndexAux_spec (hashKeysOf f ys) hnd item hitemK 0
    have hsio2 : sortedIndexOf (hashKeysOf f ys) (hashcode item) = some j := by
      rw [show sortedIndexOf (hashKeysOf f ys) (hashcode item) =
          some (0 + j) from hsio]
      norm_num
    rw [hsio2]
    show ((hashKeysOf f ys).map
        (fun kv => ys.filter
          (fun d => hashcode (f d) == hashcode kv))).getD j [] =
      ys.filter (fun d => f d == item)
    have hjlen : j < ((hashKeysOf f ys).map
        (fun kv => ys.filter
          (fun d => hashcode (f d) == hashcode kv))).length := by
      simpa using hj
    rw [List.getD_eq_getElem _ _ hjlen, List.getElem_map]
    rw [show (hashKeysOf f ys)[j] = item from hget]
    exact hvalfib item hitemK
  rw [catMap_congr _ (fun kv => ys.filter (fun d => f d == kv)) _ hblocks]
  apply sorted_filter_fiber_unique (fun d => dirQ desc (numQ (f d)))
  · -- permutation
    refine (perm_catMap_fibers f _ ys (hskperm.symm.nodup hndK) ?_).trans
      (List.perm_insertionSort _ ys).symm
    intro d hd
    exact hskperm.symm.subset (hfk d hd)
  · -- sortedness of the block concatenation
    apply sorted_catMap_blocks _ (fun kv => dirQ desc (numQ kv)) _ _ hstrict
    intro kv _ d hd
    have : f d = kv := by simpa using (List.mem_filter.mp hd).2
    rw [this]
  · exact List.sorted_insertionSort _ ys
  · -- equal fibers
    intro q
    rw [insertionSort_filter_fiber, filter_catMap]
    have hfib : ∀ kv ∈ (if desc then
          ((hashKeysOf f ys).insertionSort (leF numQ)).reverse
        else (hashKeysOf f ys).insertionSort (leF numQ)),
        (ys.filter (fun d => f d == kv)).filter
          (fun d => dirQ desc (numQ (f d)) == q) =
        if dirQ desc (numQ kv) = q then ys.filter (fun d => f d == kv)
        else [] := by
      intro kv _
      by_cases hq : dirQ desc (numQ kv) = q
      · rw [if_pos hq]
        apply List.filter_eq_self.mpr
        intro d hd
        have he : f d = kv := by simpa using (List.mem_filter.mp hd).2
        simp [he, hq]
      · rw [if_neg hq]
        apply List.filter_eq_nil_iff.mpr
        intro d hd
        have he : f d = kv := by simpa using (List.mem_filter.mp hd).2
        simp [he, hq]
    rw [catMap_congr _ _ _ hfib]
    have hndgv : ((if desc then
          ((hashKeysOf f ys).insertionSort (leF numQ)).reverse
        else (hashKeysOf f ys).insertionSort (leF numQ)).map
          (fun kv => dirQ desc (numQ kv))).Nodup := by
      refine List.Pairwise.imp ?_ ((List.pairwise_map).mpr hstrict)
      intro a b h
      exact ne_of_lt h
    rw [catMap_ite_single _ q _ _ hndgv]
    rcases hfind : (if desc then
          ((hashKeysOf f ys).insertionSort (leF numQ)).reverse
        else (hashKeysOf f ys).insertionSort (leF numQ)).find?
          (fun kv => dirQ desc (numQ kv) == q) with _ | kv0
    · symm
      apply List.filter_eq_nil_iff.mpr
      intro d hd hdq
      have hdq2 : dirQ desc (numQ (f d)) = q := by simpa using hdq
      have hmem : f d ∈ (if desc then
            ((hashKeysOf f ys).insertionSort (leF numQ)).reverse
          else (hashKeysOf f ys).insertionSort (leF numQ)) :=
        hskperm.symm.subset (hfk d hd)
      have := List.find?_eq_none.mp hfind (f d) hmem
      simp only [beq_iff_eq] at this
      exact this hdq2
    · have hkv0q : dirQ desc (numQ kv0) = q := by
        have := List.find?_some hfind
        simpa using this
      have hkv0mem : kv0 ∈ (if desc then
            ((hashKeysOf f ys).insertionSort (leF numQ)).reverse
          else (hashKeysOf f ys).insertionSort (leF numQ)) :=
        List.mem_of_find?_eq_some hfind
      apply List.filter_congr
      intro d hd
      apply bool_eq_of_iff
      simp only [beq_iff_eq]
      constructor
      · intro he
        rw [he, hkv0q]
      · intro he
        have hmem : f d ∈ (if desc then
              ((hashKeysOf f ys).insertionSort (leF numQ)).reverse
            else (hashKeysOf f ys).insertionSort (leF numQ)) :=
          hskperm.symm.subset (hfk d hd)
        exact nodup_map_inj_on hndgv (f d) hmem kv0 hkv0mem
          (by rw [he, hkv0q])

theorem sortPass_spec (ys : List Val) (k : String) (desc : Bool)
    (Hrat : ∀ d ∈ ys, ∃ q : ℚ, resolve d k false = Val.num (.rat q))
    (Hinj : ∀ d ∈ ys, ∀ d2 ∈ ys,
      hashcode (resolve d k false) = hashcode (resolve d2 k false) →
      resolve d k false = resolve d2 k false) :
    sortPass ys k desc = ys.insertionSort (leF (passKey k desc)) := by
  unfold sortPass
  simp only [groupBy_spec]
  exact sort_core_spec (fun o => resolve o k false) ys desc Hrat Hinj

theorem passChain_eq_insertionSort :
    ∀ (ps : List (String × Bool)) (xs : List Val),
      (∀ d ∈ xs, ∀ p ∈ ps, ∃ q : ℚ, resolve d p.1 false = Val.num (.rat q)) →
      (∀ d ∈ xs, ∀ d2 ∈ xs, ∀ p ∈ ps,
        hashcode (resolve d p.1 false) = hashcode (resolve d2 p.1 false) →
        resolve d p.1 false = resolve d2 p.1 false) →
      passChain xs ps =
        xs.insertionSort (lexLe (ps.map (fun p => passKey p.1 p.2)))
  | [], xs, _, _ => (insertionSort_lexLe_nil xs).symm
  | (k, desc) :: ps, xs, Hrat, Hinj => by
      rw [show passChain xs ((k, desc) :: ps) =
          sortPass (passChain xs ps) k desc from rfl]
      rw [passChain_eq_insertionSort ps xs
        (fun d hd p hp => Hrat d hd p (by simp [hp]))
        (fun d hd d2 hd2 p hp => Hinj d hd d2 hd2 p (by simp [hp]))]
      rw [sortPass_spec _ k desc
        (fun d hd => Hrat d ((List.mem_insertionSort _).mp hd) (k, desc)
          (by simp))
        (fun d hd d2 hd2 => Hinj d ((List.mem_insertionSort _).mp hd)
          d2 ((List.mem_insertionSort _).mp hd2) (k, desc) (by simp))]
      rw [show ((k, desc) :: ps).map (fun p => passKey p.1 p.2) =
          passKey k desc :: ps.map (fun p => passKey p.1 p.2) from rfl]
      exact insertionSort_insertionSort (passKey k desc)
        (ps.map (fun p => passKey p.1 p.2)) xs

theorem foldr_eq_passChain (xs : List Val) (flag : String → Bool) :
    ∀ (ks : List String),
      ks.foldr (fun key coll => sortPass coll key (flag key)) xs =
        passChain xs (ks.map (fun key => (key, flag key)))
  | [] => rfl
  | key :: ks => by
      rw [List.foldr_cons, foldr_eq_passChain xs flag ks]
      rfl

theorem dollarSort_eq_chain (xs : List Val) (S : List (String × Val))
    (hS : S.isEmpty = false) :
    dollarSort xs S =
      passChain xs
        (S.map (fun p => (p.1, lookupD S p.1 == Val.int (-1)))) := by
  unfold dollarSort
  rw [hS]
  simp only [Bool.false_eq_true, if_false, List.foldl_reverse]
  rw [show (S.map Prod.fst).foldr
      (fun key coll => sortPass coll key (lookupD S key == Val.int (-1))) xs =
    passChain xs ((S.map Prod.fst).map
      (fun key => (key, lookupD S key == Val.int (-1)))) from
    foldr_eq_passChain xs _ (S.map Prod.fst)]
  rw [List.map_map]
  rfl

/-! ### Agreement of the two builds -/

theorem exceptMapM_congr {α β : Type} (f g : α → Except String β) :
    ∀ (l : List α), (∀ x ∈ l, f x = g x) → l.mapM f = l.mapM g
  | [], _ => rfl
  | x :: t, h => by
      rw [List.mapM_cons, List.mapM_cons, h x (by simp),
        exceptMapM_congr f g t (fun y hy => h y (by simp [hy]))]

mutual

theorem computeValue1_eq : ∀ (obj expr field : Val) (opt : Option Val),
    computeValue1 obj expr field opt = computeValue obj expr field opt
  | obj, expr, field, opt => by
      rw [computeValue1.eq_def, computeValue.eq_def]
      simp only []
      split
      · exact aggregateCall1_eq (valOpName field) obj expr
      · split
        · rw [computeValue1_eq obj expr .null
            (some (opt.getD (clone obj)))]
          split
          · rfl
          · split
            · exact groupCall1_eq (valOpName field) _ .null
            · rfl
        · split
          · rfl
          · rw [exceptMapM_congr _ _ _
              (fun x _ => computeValue1_eq obj x.1 .null none)]
          · exact computeObjExpr1_eq obj _ _ _
          · rfl
termination_by obj expr field opt => 20 * sizeOf expr + 5 * opRank field + 4
decreasing_by
  all_goals simp_wf
  all_goals try (have hsz := List.sizeOf_lt_of_mem x.2)
  all_goals try subst expr
  all_goals try simp only [Val.arr.sizeOf_spec, Val.obj.sizeOf_spec] at *
  all_goals try (have hvp := val_sizeOf_pos expr)
  all_goals
    (have h0 : opRank Val.null = 0 := rfl
     have hle := opRank_le_one field
     first
       | omega
       | (have ha1 : opRank field = 1 := by
            unfold opRank
            rw [if_pos (by
              rw [Bool.or_eq_true]
              first
                | (left; assumption)
                | (right; assumption))]
          omega))

theorem computeObjExpr1_eq : ∀ (obj : Val)
    (remaining full : List (String × Val)) (root : Val),
    computeObjExpr1 obj remaining full root =
      computeObjExpr obj remaining full root
  | obj, remaining, full, root => by
      rw [computeObjExpr1.eq_def, computeObjExpr.eq_def]
      split
      · rfl
      · rw [computeValue1_eq]
        split
        · rfl
        · split
          · rfl
          · rw [computeObjExpr1_eq]
termination_by obj remaining full root => 20 * sizeOf remaining + 23
decreasing_by
  all_goals simp_wf
  all_goals try subst remaining
  all_goals try simp only [List.cons.sizeOf_spec, Prod.mk.sizeOf_spec] at *
  all_goals try simp only [opRank]
  all_goals try split
  all_goals omega

theorem aggregateCall1_eq : ∀ (op : String) (obj expr : Val),
    aggregateCall1 op obj expr = aggregateCall op obj expr
  | op, obj, expr => by
      rw [aggregateCall1.eq_def, aggregateCall.eq_def]
      split
      · exact dollarSqrt1_eq obj expr
      · split
        · exact dollarTrunc1_eq obj expr
        · rfl
termination_by op obj expr => 20 * sizeOf expr + 8
decreasing_by
  all_goals simp_wf
  all_goals omega

theorem dollarSqrt1_eq : ∀ (obj expr : Val),
    dollarSqrt1 obj expr = dollarSqrt obj expr
  | obj, expr => by
      rw [dollarSqrt1.eq_def, dollarSqrt.eq_def, computeValue1_eq]
termination_by obj expr => 20 * sizeOf expr + 7
decreasing_by
  all_goals simp_wf
  all_goals
    (have h0 : opRank Val.null = 0 := rfl
     omega)

theorem dollarTrunc1_eq : ∀ (obj expr : Val),
    dollarTrunc1 obj expr = dollarTrunc obj expr
  | obj, expr => by
      rw [dollarTrunc1.eq_def, dollarTrunc.eq_def, computeValue1_eq]
termination_by obj expr => 20 * sizeOf expr + 7
decreasing_by
  all_goals simp_wf
  all_goals
    (have h0 : opRank Val.null = 0 := rfl
     omega)

theorem groupCall1_eq : ∀ (op : String) (collection : List Val) (expr : Val),
    groupCall1 op collection expr = groupCall op collection expr
  | op, collection, expr => by
      rw [groupCall1.eq_def, groupCall.eq_def]
      split
      · exact dollarPush1_eq collection expr
      · split
        · exact dollarSum1_eq collection expr
        · split
          · exact dollarStdDevPop1_eq collection expr
          · split
            · exact dollarStdDevSamp1_eq collection expr
            · rfl
termination_by op collection expr => 20 * sizeOf expr + 8
decreasing_by
  all_goals simp_wf
  all_goals omega

theorem dollarPush1_eq : ∀ (collection : List Val) (expr : Val),
    dollarPush1 collection expr = dollarPush collection expr
  | collection, expr => by
      rw [dollarPush1.eq_def, dollarPush.eq_def]
      split
      · rfl
      · rw [exceptMapM_congr _ _ _
          (fun x _ => computeValue1_eq x.1 expr .null none)]
termination_by collection expr => 20 * sizeOf expr + 6
decreasing_by
  all_goals simp_wf
  all_goals
    (have h0 : opRank Val.null = 0 := rfl
     omega)

theorem dollarSum1_eq : ∀ (collection : List Val) (expr : Val),
    dollarSum1 collection expr = dollarSum collection expr
  | collection, expr => by
      rw [dollarSum1.eq_def, dollarSum.eq_def]
      split
      · rfl
      · rw [dollarPush1_eq]
termination_by collection expr => 20 * sizeOf expr + 7
decreasing_by
  all_goals simp_wf
  all_goals
    (have h0 : opRank Val.null = 0 := rfl
     omega)

theorem dollarStdDevPop1_eq : ∀ (collection : List Val) (expr : Val),
    dollarStdDevPop1 collection expr = dollarStdDevPop collection expr
  | collection, expr => by
      rw [dollarStdDevPop1.eq_def, dollarStdDevPop.eq_def, dollarPush1_eq]
      split
      · rfl
      · rfl
termination_by collection expr => 20 * sizeOf expr + 7
decreasing_by
  all_goals simp_wf
  all_goals
    (have h0 : opRank Val.null = 0 := rfl
     omega)

theorem dollarStdDevSamp1_eq : ∀ (collection : List Val) (expr : Val),
    dollarStdDevSamp1 collection expr = dollarStdDevSamp collection expr
  | collection, expr => by
      rw [dollarStdDevSamp1.eq_def, dollarStdDevSamp.eq_def, dollarPush1_eq]
      split
      · rfl
      · rfl
termination_by collection expr => 20 * sizeOf expr + 7
decreasing_by
  all_goals simp_wf
  all_goals
    (have h0 : opRank Val.null = 0 := rfl
     omega)

end

/-! ## Claims -/

/-- `ToIntegerOrInfinity` is the identity on integer arguments. -/
theorem jsToInt_intCast (n : ℤ) : jsToInt (n : ℚ) = n := by
  unfold jsToInt
  have hden : ((n : ℚ)).den = 1 := Rat.den_intCast n
  have hnum : ((n : ℚ)).num = n := Rat.num_intCast n
  split
  · rw [Rat.floor, if_pos hden, hnum]
  · rw [Rat.ceil, if_pos hden, hnum]

/-- C1, counterexample: the composition law fails twice over.  With the
negative counts `i = j = -1` over a two-document collection,
`[{$skip: -1}, {$skip: -1}]` keeps only the last document while
`[{$skip: -2}]` keeps both, because `Array.prototype.slice` treats a
negative start as an offset from the end.  With the fractional counts
`i = j = 1.5` over a three-document collection, `slice` truncates each
start toward zero, so `[{$skip: 1.5}, {$skip: 1.5}]` drops two documents
while `[{$skip: 3}]` drops all three. -/
theorem skip_skip_counterexample :
    (aggregate [Val.int 10, Val.int 20]
        [Stage.skip (-1), Stage.skip (-1)] = .ok [Val.int 20] ∧
      aggregate [Val.int 10, Val.int 20] [Stage.skip ((-1) + (-1))] =
        .ok [Val.int 10, Val.int 20] ∧
      aggregate [Val.int 10, Val.int 20]
          [Stage.skip (-1), Stage.skip (-1)] ≠
        aggregate [Val.int 10, Val.int 20] [Stage.skip ((-1) + (-1))]) ∧
    (aggregate [Val.int 10, Val.int 20, Val.int 30]
        [Stage.skip (3 / 2), Stage.skip (3 / 2)] = .ok [Val.int 30] ∧
      aggregate [Val.int 10, Val.int 20, Val.int 30]
          [Stage.skip (3 / 2 + 3 / 2)] = .ok [] ∧
      aggregate [Val.int 10, Val.int 20, Val.int 30]
          [Stage.skip (3 / 2), Stage.skip (3 / 2)] ≠
        aggregate [Val.int 10, Val.int 20, Val.int 30]
          [Stage.skip (3 / 2 + 3 / 2)]) := by
  refine ⟨⟨?_, ?_, ?_⟩, ?_, ?_, ?_⟩ <;> with_unfolding_all decide

/-- C1 (amended): for all NONNEGATIVE INTEGER skip counts `i` and `j`,
running `[{$skip: i}, {$skip: j}]` over a collection returns the same
document sequence as `[{$skip: i + j}]`.  (Negative counts offset from the
end of the array and fractional counts are truncated toward zero before
dropping, so both restrictions are forced by the counterexample.) -/
theorem skip_skip_amended (xs : List Val) (i j : ℤ)
    (hi : 0 ≤ i) (hj : 0 ≤ j) :
    aggregate xs [Stage.skip (i : ℚ), Stage.skip (j : ℚ)] =
      aggregate xs [Stage.skip ((i : ℚ) + (j : ℚ))] := by
  simp only [aggregate, List.foldlM, runStage, Except.bind, bind, pure]
  have hij : ((i : ℚ) + (j : ℚ)) = ((i + j : ℤ) : ℚ) := by push_cast; ring
  simp only [hij, jsSliceFrom, jsToInt_intCast]
  simp only [if_neg (by omega : ¬ i < 0), if_neg (by omega : ¬ j < 0),
    if_neg (by omega : ¬ i + j < 0)]
  rw [List.drop_drop]
  have h : i.toNat + j.toNat = (i + j).toNat := by omega
  rw [h]

/-- C1 witness. -/
theorem skip_skip_amended_witness :
    aggregate [Val.int 10, Val.int 20, Val.int 30]
        [Stage.skip ((1 : ℤ) : ℚ), Stage.skip ((1 : ℤ) : ℚ)] =
      aggregate [Val.int 10, Val.int 20, Val.int 30]
        [Stage.skip (((1 : ℤ) : ℚ) + ((1 : ℤ) : ℚ))] :=
  skip_skip_amended _ 1 1 (by norm_num) (by norm_num)

/-- The square-root model is exact on squares of rationals. -/
theorem ratSqrt_sq (r : ℚ) (hr : 0 ≤ r) : ratSqrt (r * r) = r := by
  unfold ratSqrt
  rw [Rat.mul_self_num, Rat.mul_self_den]
  have hnn := Rat.num_nonneg.mpr hr
  obtain ⟨m, hm⟩ := Int.eq_ofNat_of_zero_le hnn
  have hnum : (r.num * r.num).toNat = r.num.toNat * r.num.toNat := by
    rw [hm, ← Int.natCast_mul, Int.toNat_natCast, Int.toNat_natCast]
  rw [hnum, Nat.sqrt_eq, Nat.sqrt_eq]
  have hcast : (r.num.toNat : ℚ) = (r.num : ℚ) := by
    exact_mod_cast congrArg Int.cast (Int.toNat_of_nonneg hnn)
  rw [hcast, Rat.num_div_den]

/-- C6, counterexample: an UNDEFINED operand (here a missing field path)
makes `$sqrt` and `$trunc` return NaN, not null as the claim states, because
the source tests the global `isNaN` first and `isNaN(undefined)` is true. -/
theorem sqrt_trunc_undefined_counterexample :
    computeValue (.obj []) (.str "$x") .null none = .ok .undef ∧
    dollarSqrt (.obj []) (.str "$x") = .ok (.num .nan) ∧
    dollarTrunc (.obj []) (.str "$x") = .ok (.num .nan) ∧
    Val.num .nan ≠ Val.null := by
  have h1 : computeValue (.obj []) (.str "$x") .null none = .ok .undef := by
    unfold computeValue
    with_unfolding_all decide
  refine ⟨h1, ?_, ?_, by decide⟩
  · unfold dollarSqrt
    rw [h1]
    with_unfolding_all decide
  · unfold dollarTrunc
    rw [h1]
    with_unfolding_all decide

/-- C6 (amended): for `$sqrt` and `$trunc`, a NULL operand yields null; an
UNDEFINED or NaN operand yields NaN (undefined falls into the leading global
`isNaN` test); a numeric operand that is not strictly positive raises the
validation error; and a strictly positive operand `q` yields `ratSqrt q`
(the model of `Math.sqrt`, exact when `q` is the square of a rational)
resp. the integer truncation of `q`. -/
theorem sqrt_trunc_amended (obj expr v : Val)
    (h : computeValue obj expr .null none = .ok v) :
    (v = .null →
      dollarSqrt obj expr = .ok .null ∧ dollarTrunc obj expr = .ok .null) ∧
    (v = .undef ∨ v = .num .nan →
      dollarSqrt obj expr = .ok (.num .nan) ∧
      dollarTrunc obj expr = .ok (.num .nan)) ∧
    (∀ q : ℚ, v = .num (.rat q) → q ≤ 0 →
      dollarSqrt obj expr = .error
        "$sqrt must be a valid expression that resolves to a non-negative number." ∧
      dollarTrunc obj expr = .error
        "$trunc must be a valid expression that resolves to a non-negative number.") ∧
    (∀ q : ℚ, v = .num (.rat q) → 0 < q →
      dollarSqrt obj expr = .ok (.num (.rat (ratSqrt q))) ∧
      (∀ r : ℚ, 0 ≤ r → q = r * r →
        dollarSqrt obj expr = .ok (.num (.rat r))) ∧
      dollarTrunc obj expr = .ok (.num (.rat (ratTrunc q)))) := by
  refine ⟨?_, ?_, ?_, ?_⟩
  · rintro rfl
    constructor <;> simp [dollarSqrt, dollarTrunc, h, jsIsNaN, jsToNumber,
      isUnknown, isNullV, isUndefined, typeOf]
  · rintro (rfl | rfl) <;>
      constructor <;> simp [dollarSqrt, dollarTrunc, h, jsIsNaN, jsToNumber]
  · rintro q rfl hq
    constructor <;>
      simp [dollarSqrt, dollarTrunc, h, jsIsNaN, jsToNumber, isUnknown,
        isNullV, isUndefined, typeOf, not_lt.mpr hq]
  · rintro q rfl hq
    refine ⟨?_, ?_, ?_⟩
    · simp [dollarSqrt, h, jsIsNaN, jsToNumber, isUnknown, isNullV,
        isUndefined, typeOf, hq]
    · rintro r hr rfl
      simp [dollarSqrt, h, jsIsNaN, jsToNumber, isUnknown, isNullV,
        isUndefined, typeOf, hq, ratSqrt_sq r hr]
    · simp [dollarTrunc, h, jsIsNaN, jsToNumber, isUnknown, isNullV,
        isUndefined, typeOf, hq]

/-- C6 witness: the amended theorem at the literal operand 4. -/
theorem sqrt_trunc_amended_witness :
    dollarSqrt (.obj []) (Val.int 4) = .ok (Val.int 2) ∧
    dollarTrunc (.obj []) (Val.int 4) = .ok (Val.int 4) := by
  have h := sqrt_trunc_amended (.obj []) (Val.int 4) (Val.int 4)
    (by unfold computeValue; with_unfolding_all decide)
  have h4 := h.2.2.2 4 rfl (by norm_num)
  refine ⟨?_, ?_⟩
  · have := h4.2.1 2 (by norm_num) (by norm_num)
    simpa [Val.int] using this
  · have hfl : Rat.floor 4 = 4 := by with_unfolding_all decide
    have := h4.2.2
    rw [this]
    norm_num [ratTrunc, Val.int, hfl]

/-- The N of the claim: the dataset length, or 1 when the dataset is
empty. -/
def specN (ds : List JsNum) : ℚ :=
  if ds.length = 0 then 1 else (ds.length : ℚ)

/-- The mean of the claim: the sum divided by `N - 1` when sampled and by
`N` otherwise. -/
def specMean (ds : List JsNum) (sampled : Bool) : JsNum :=
  jsDiv (ds.foldl jsAdd (.rat 0))
    (.rat (if sampled then specN ds - 1 else specN ds))

/-- The sum of squared deviations from a given mean. -/
def sumSqDev (ds : List JsNum) (m : JsNum) : JsNum :=
  ds.foldl (fun acc n => jsAdd acc (jsMul (jsSub n m) (jsSub n m))) (.rat 0)

/-- C7: `stddev({dataset, sampled})` is the square root of the sum of
squared deviations from the mean divided by `N` (the dataset length, or 1
when empty); the `sampled` flag only changes the mean, whose divisor drops
to `N - 1` — the variance denominator is `N` in both cases.  The final
conjunct witnesses that the square root is exact: if the variance is the
square of a nonnegative rational `r` the result is `r` itself. -/
theorem stddev_spec (ds : List JsNum) (sampled : Bool) :
    stddev ds sampled =
      jsSqrtNum (jsDiv (sumSqDev ds (specMean ds sampled)) (.rat (specN ds))) ∧
    specMean ds true = jsDiv (ds.foldl jsAdd (.rat 0)) (.rat (specN ds - 1)) ∧
    specMean ds false = jsDiv (ds.foldl jsAdd (.rat 0)) (.rat (specN ds)) ∧
    (∀ r : ℚ, 0 ≤ r →
      jsDiv (sumSqDev ds (specMean ds sampled)) (.rat (specN ds)) = .rat (r * r) →
      stddev ds sampled = .rat r) := by
  have hmain : stddev ds sampled =
      jsSqrtNum (jsDiv (sumSqDev ds (specMean ds sampled)) (.rat (specN ds))) := by
    cases sampled <;> simp [stddev, specMean, sumSqDev, specN]
  refine ⟨hmain, rfl, by simp [specMean], ?_⟩
  intro r hr hsq
  rw [hmain, hsq]
  have : ¬ (r * r < 0) := not_lt.mpr (mul_self_nonneg r)
  simp [jsSqrtNum, this, ratSqrt_sq r hr]

/-- C7 witness: the exact-square-root conjunct at the dataset {1, 3}. -/
theorem stddev_spec_witness :
    stddev [JsNum.rat 1, JsNum.rat 3] false = .rat 1 := by
  have h := (stddev_spec [JsNum.rat 1, JsNum.rat 3] false).2.2.2 1 (by norm_num)
  apply h
  norm_num [sumSqDev, specMean, specN, jsDiv, jsAdd, jsMul, jsSub]

theorem lookupD_assocDelete (fs : List (String × Val)) (k : String) :
    lookupD (assocDelete fs k) k = .undef := by
  induction fs with
  | nil => rfl
  | cons p fs ih =>
      obtain ⟨k', v⟩ := p
      by_cases h : k' = k <;> simp [assocDelete, lookupD, h] at ih ⊢ <;>
        simpa [assocDelete, h] using ih

/-- C8: `$group` deletes the identity key from its caller's expression
object: whenever the stage returns, the expression it hands back (the state
of the caller's object) is the original minus every `_id` entry, so a second
run over the same stage object observes an expression without the identity
key. -/
theorem group_mutates_expression (collection : List Val)
    (expr : List (String × Val)) (res : List Val × List (String × Val))
    (h : dollarGroup collection expr = .ok res) :
    res.2 = expr.filter (fun p => p.1 ≠ settingsKey) ∧
    lookupD res.2 settingsKey = .undef := by
  have h2 : res.2 = assocDelete expr settingsKey := by
    unfold dollarGroup at h
    simp only [bind, Except.bind, pure, Except.pure] at h
    split at h
    · exact absurd h (by simp)
    · split at h
      · exact absurd h (by simp)
      · rw [Except.ok.injEq] at h
        rw [← h]
  refine ⟨h2, ?_⟩
  rw [h2]
  exact lookupD_assocDelete expr settingsKey

/-- C8 witness. -/
theorem group_mutates_expression_witness :
    dollarGroup []
        [(settingsKey, Val.null), ("t", Val.obj [("$sum", Val.int 1)])] =
      .ok ([], [("t", Val.obj [("$sum", Val.int 1)])]) ∧
    (([], [("t", Val.obj [("$sum", Val.int 1)])]) :
        List Val × List (String × Val)).2 =
      [(settingsKey, Val.null), ("t", Val.obj [("$sum", Val.int 1)])].filter
        (fun p => p.1 ≠ settingsKey) := by
  have hrun : dollarGroup ([] : List Val)
      [(settingsKey, Val.null), ("t", Val.obj [("$sum", Val.int 1)])] =
      .ok ([], [("t", Val.obj [("$sum", Val.int 1)])]) := by
    with_unfolding_all decide
  exact ⟨hrun, (group_mutates_expression _ _ _ hrun).1⟩

/-- C9: a query built from empty criteria — undefined, null, or the empty
object — compiles zero predicates, its `test` accepts every document, and
`find` over any collection returns the whole collection. -/
theorem empty_criteria_matches_all (criteria : Val)
    (h : criteria = .null ∨ criteria = .undef ∨ criteria = .obj []) :
    queryCompile criteria = .ok [] ∧
    (∀ q, mkQuery criteria .undef = .ok q → ∀ d, queryTest q d = true) ∧
    (∀ collection, mingoFind collection criteria none = .ok collection) := by
  have hc : queryCompile criteria = .ok [] := by
    obtain rfl | rfl | rfl := h <;> rfl
  refine ⟨hc, ?_, ?_⟩
  · intro q hq d
    simp [mkQuery, hc, Except.map] at hq
    rw [← hq]
    rfl
  · intro collection
    simp only [mingoFind, mkQuery, hc, Except.map, bind, Except.bind]
    simp only [queryFind, cursorFetch, queryTest, List.all_nil, aggregate,
      List.foldlM]
    rw [List.filter_eq_self.mpr (by intro a _; rfl)]
    rfl

/-- The last `skip` argument of a call sequence, if any. -/
def lastSkipOf (calls : List CursorCall) : Option ℚ :=
  calls.foldl (fun acc c => match c with | .skip n => some n | _ => acc) none

/-- The last `limit` argument of a call sequence, if any. -/
def lastLimitOf (calls : List CursorCall) : Option ℚ :=
  calls.foldl (fun acc c => match c with | .limit n => some n | _ => acc) none

/-- The last `sort` argument of a call sequence, if any. -/
def lastSortOf (calls : List CursorCall) : Option (List (String × Val)) :=
  calls.foldl (fun acc c => match c with | .sort s => some s | _ => acc) none

theorem foldl_applyCall_skip (calls : List CursorCall) :
    ∀ st : CursorOps, (calls.foldl applyCall st).skip =
      calls.foldl (fun acc c => match c with | .skip n => some n | _ => acc)
        st.skip := by
  induction calls with
  | nil => intro st; rfl
  | cons c rest ih => intro st; cases c <;> simp [applyCall, ih]

theorem foldl_applyCall_limit (calls : List CursorCall) :
    ∀ st : CursorOps, (calls.foldl applyCall st).limit =
      calls.foldl (fun acc c => match c with | .limit n => some n | _ => acc)
        st.limit := by
  induction calls with
  | nil => intro st; rfl
  | cons c rest ih => intro st; cases c <;> simp [applyCall, ih]

theorem foldl_applyCall_sort (calls : List CursorCall) :
    ∀ st : CursorOps, (calls.foldl applyCall st).sort =
      calls.foldl (fun acc c => match c with | .sort s => some s | _ => acc)
        st.sort := by
  induction calls with
  | nil => intro st; rfl
  | cons c rest ih => intro st; cases c <;> simp [applyCall, ih]

theorem foldl_applyCall_project (calls : List CursorCall) :
    ∀ st : CursorOps, (calls.foldl applyCall st).project = st.project := by
  induction calls with
  | nil => intro st; rfl
  | cons c rest ih => intro st; cases c <;> simp [applyCall, ih]

/-- C3: however the caller interleaves `skip`, `limit` and `sort` calls (and
whether or not a projection was supplied), materialization first filters the
collection with the query's test and then runs the accumulated operators —
the last value given for each — as an internal pipeline in the fixed order
`[$sort, $skip, $limit, $project]`. -/
theorem cursor_fixed_pipeline (collection : List Val) (q : MQuery)
    (projection : Option (List (String × Val))) (calls : List CursorCall) :
    cursorFetch collection q projection (calls.foldl applyCall {}) =
      aggregate (collection.filter (queryTest q))
        ((match lastSortOf calls with
          | some s => [Stage.sort s] | none => []) ++
         (match lastSkipOf calls with
          | some n => [Stage.skip n] | none => []) ++
         (match lastLimitOf calls with
          | some n => [Stage.limit n] | none => []) ++
         (match projection with
          | some pr => [Stage.project pr] | none => [])) := by
  have hs := foldl_applyCall_skip calls {}
  have hl := foldl_applyCall_limit calls {}
  have ho := foldl_applyCall_sort calls {}
  have hp := foldl_applyCall_project calls {}
  cases projection <;>
    simp only [cursorFetch, lastSkipOf, lastLimitOf, lastSortOf] <;>
    rw [hs, hl, ho] <;>
    simp [hp]

theorem beq_comm' {α : Type} [DecidableEq α] (a b : α) : (a == b) = (b == a) := by
  by_cases h : a = b
  · simp [h]
  · simp [h]
    exact fun hh => h hh.symm

theorem eq_keys_comm_helper (la lb : ℕ) (S T : List String) (x y : Bool)
    (h : S = T → x = y) :
    (la == lb && (S == T) && x) = (lb == la && (T == S) && y) := by
  by_cases hST : S = T
  · subst hST
    rw [beq_comm' la lb, h rfl]
  · have hTS : ¬ T = S := fun hh => hST hh.symm
    have h1 : (S == T) = false := by simp [hST]
    have h2 : (T == S) = false := by simp [hTS]
    rw [h1, h2]
    simp

mutual

/-- `isEqual` is symmetric. -/
theorem isEqual_comm : ∀ a b, isEqual a b = isEqual b a
  | .null, b => by cases b <;> simp only [isEqual]
  | .undef, b => by cases b <;> simp only [isEqual]
  | .bool x, b => by
      cases b <;> simp only [isEqual]
      exact beq_comm' x _
  | .num m, b => by
      cases b <;> simp only [isEqual]
      exact beq_comm' m _
  | .str s, b => by
      cases b <;> simp only [isEqual]
      exact beq_comm' s _
  | .arr xs, b => by
      cases b <;> simp only [isEqual]
      case arr ys =>
        rw [isEqualList_comm xs ys, beq_comm' xs.length]
  | .obj fs, b => by
      cases b <;> simp only [isEqual]
      case obj gs =>
        exact eq_keys_comm_helper _ _ _ _ _ _
          (fun hST => by rw [hST]; exact isEqualKeys_comm _ fs gs)
termination_by a b => (sizeOf a + sizeOf b, 0)
decreasing_by
  all_goals simp_wf
  all_goals exact Prod.Lex.left _ _ (by omega)

theorem isEqualList_comm : ∀ xs ys, isEqualList xs ys = isEqualList ys xs
  | [], ys => by cases ys <;> simp only [isEqualList]
  | x :: xs, ys => by
      cases ys <;> simp only [isEqualList]
      case cons y ys => rw [isEqual_comm x y, isEqualList_comm xs ys]
termination_by xs ys => (sizeOf xs + sizeOf ys, 0)
decreasing_by
  all_goals simp_wf
  all_goals exact Prod.Lex.left _ _ (by omega)

theorem isEqualKeys_comm : ∀ ks a b, isEqualKeys ks a b = isEqualKeys ks b a
  | [], _, _ => by simp only [isEqualKeys]
  | k :: ks, a, b => by
      simp only [isEqualKeys]
      rw [isEqual_comm (lookupD a k) (lookupD b k), isEqualKeys_comm ks a b]
termination_by ks a b => (sizeOf a + sizeOf b, ks.length + 1)
decreasing_by
  all_goals simp_wf
  · rcases Nat.eq_or_lt_of_le
        (Nat.add_le_add (lookupD_sizeOf_le a k) (lookupD_sizeOf_le b k))
      with h | h
    · rw [h]; exact Prod.Lex.right _ (by omega)
    · exact Prod.Lex.left _ _ h
  · exact Prod.Lex.right _ (by omega)

end

mutual

/-- `isEqual` is reflexive. -/
theorem isEqual_refl : ∀ a, isEqual a a = true
  | .null => by simp only [isEqual]
  | .undef => by simp only [isEqual]
  | .bool x => by simp only [isEqual]; simp
  | .num m => by simp only [isEqual]; simp
  | .str s => by simp only [isEqual]; simp
  | .arr xs => by
      simp only [isEqual]
      simp [isEqualList_refl xs]
  | .obj fs => by
      simp only [isEqual]
      simp [isEqualKeys_refl _ fs]
termination_by a => (sizeOf a, 0)
decreasing_by
  all_goals simp_wf
  all_goals exact Prod.Lex.left _ _ (by omega)

theorem isEqualList_refl : ∀ xs, isEqualList xs xs = true
  | [] => by simp only [isEqualList]
  | x :: xs => by
      simp only [isEqualList]
      simp [isEqual_refl x, isEqualList_refl xs]
termination_by xs => (sizeOf xs, 0)
decreasing_by
  all_goals simp_wf
  all_goals exact Prod.Lex.left _ _ (by omega)

theorem isEqualKeys_refl : ∀ ks a, isEqualKeys ks a a = true
  | [], _ => by simp only [isEqualKeys]
  | k :: ks, a => by
      simp only [isEqualKeys]
      simp [isEqual_refl (lookupD a k), isEqualKeys_refl ks a]
termination_by ks a => (sizeOf a, ks.length + 1)
decreasing_by
  all_goals simp_wf
  · rcases Nat.eq_or_lt_of_le (lookupD_sizeOf_le a k) with h | h
    · rw [h]; exact Prod.Lex.right _ (by omega)
    · exact Prod.Lex.left _ _ h
  · exact Prod.Lex.right _ (by omega)

end

theorem jsFindIndex_ne_neg_one (p : Val → Bool) (xs : List Val) :
    ∀ i : ℤ, 0 ≤ i → (jsFindIndex p xs i ≠ -1 ↔ ∃ x ∈ xs, p x = true) := by
  induction xs with
  | nil => intro i _; simp [jsFindIndex]
  | cons x xs ih =>
      intro i hi
      by_cases hp : p x = true
      · simp only [jsFindIndex, hp, if_pos]
        constructor
        · intro _; exact ⟨x, by simp, hp⟩
        · intro _; omega
      · simp only [jsFindIndex, hp, if_neg, Bool.not_eq_true]
        rw [ih (i + 1) (by omega)]
        simp only [List.mem_cons]
        constructor
        · rintro ⟨e, he, hpe⟩; exact ⟨e, Or.inr he, hpe⟩
        · rintro ⟨e, he | he, hpe⟩
          · exact absurd (he ▸ hpe) (by simp [hp])
          · exact ⟨e, he, hpe⟩

/-- `isEqual (.num n) (.arr ys)` is false (unequal types). -/
theorem isEqual_num_arr (n : JsNum) (ys : List Val) :
    isEqual (.num n) (.arr ys) = false := by
  simp only [isEqual]

/-- C4, counterexample: with the array value `a = [1, 2]` and the operand
`b = [1, 2]`, `$eq(a, b)` is true because the whole array is deep-equal to
the operand, yet no ELEMENT of `a` is deep-equal to `b` — so "true exactly
when some element of a is deep-equal to b" fails. -/
theorem eq_op_counterexample :
    dollarEqOp (.arr [Val.int 1, Val.int 2]) (.arr [Val.int 1, Val.int 2]) =
      true ∧
    ¬ ∃ e ∈ [Val.int 1, Val.int 2],
        isEqual e (.arr [Val.int 1, Val.int 2]) = true := by
  constructor
  · unfold dollarEqOp
    rw [isEqual_refl]
    simp
  · rintro ⟨e, he, h⟩
    have hfalse : isEqual e (.arr [Val.int 1, Val.int 2]) = false := by
      fin_cases he <;> exact isEqual_num_arr _ _
    rw [hfalse] at h
    cases h

/-- C4 (amended): for an array value `a`, `$eq(a, b)` is true exactly when
the WHOLE array `a` is deep-equal to the operand `b`, or some element of `a`
is deep-equal to `b`. -/
theorem eq_op_array_semantics (xs : List Val) (b : Val) :
    dollarEqOp (.arr xs) b = true ↔
      (isEqual (.arr xs) b = true ∨ ∃ e ∈ xs, isEqual e b = true) := by
  unfold dollarEqOp
  simp only [isArrayV, typeOf, beq_self_eq_true, Bool.true_and,
    Bool.or_eq_true, decide_eq_true_eq]
  rw [jsFindIndex_ne_neg_one _ xs 0 (by omega)]
  constructor
  · rintro (h | ⟨e, he, hpe⟩)
    · exact Or.inl h
    · exact Or.inr ⟨e, he, (isEqual_comm b e) ▸ hpe⟩
  · rintro (h | ⟨e, he, hpe⟩)
    · exact Or.inl h
    · exact Or.inr ⟨e, he, (isEqual_comm e b) ▸ hpe⟩

theorem projCheck_error : ∀ (pairs : List (String × Val)) (c0 c1 : Bool),
    (c0 = true ∨ ∃ p ∈ pairs, p.1 ≠ settingsKey ∧ isExclV p.2 = true) →
    (c1 = true ∨ ∃ p ∈ pairs, p.1 ≠ settingsKey ∧ isExclV p.2 = false) →
    (c0 = true → c1 = true → ∃ p ∈ pairs, p.1 ≠ settingsKey) →
    projCheck pairs c0 c1 =
      .error "Projection cannot have a mix of inclusion and exclusion."
  | [], c0, c1 => by
      rintro (h0 | ⟨p, hp, _⟩) h1 h3
      · rcases h1 with h1 | ⟨p, hp, _⟩
        · obtain ⟨p, hp, _⟩ := h3 h0 h1
          exact absurd hp (List.not_mem_nil p)
        · exact absurd hp (List.not_mem_nil p)
      · exact absurd hp (List.not_mem_nil p)
  | (k, v) :: rest, c0, c1 => by
      intro h0 h1 h3
      by_cases hk : k = settingsKey
      · rw [projCheck, if_pos (by simp [hk])]
        apply projCheck_error rest c0 c1
        · rcases h0 with h0 | ⟨p, hp, hpk, hpe⟩
          · exact Or.inl h0
          · rcases List.mem_cons.mp hp with rfl | hp
            · exact absurd hk hpk
            · exact Or.inr ⟨p, hp, hpk, hpe⟩
        · rcases h1 with h1 | ⟨p, hp, hpk, hpe⟩
          · exact Or.inl h1
          · rcases List.mem_cons.mp hp with rfl | hp
            · exact absurd hk hpk
            · exact Or.inr ⟨p, hp, hpk, hpe⟩
        · intro hc0 hc1
          obtain ⟨p, hp, hpk⟩ := h3 hc0 hc1
          rcases List.mem_cons.mp hp with rfl | hp
          · exact absurd hk hpk
          · exact ⟨p, hp, hpk⟩
      · rw [projCheck, if_neg (by simp [hk])]
        simp only []
        by_cases hee : ((if isExclV v then true else c0) ==
            (if isExclV v then c1 else true)) = true
        · rw [if_pos hee]
        · rw [if_neg hee]
          apply projCheck_error rest
          · by_cases hx : isExclV v = true
            · exact Or.inl (by simp [hx])
            · rcases h0 with h0 | ⟨p, hp, hpk, hpe⟩
              · exact Or.inl (by simp [hx, h0])
              · rcases List.mem_cons.mp hp with rfl | hp
                · exact absurd hpe hx
                · exact Or.inr ⟨p, hp, hpk, hpe⟩
          · by_cases hx : isExclV v = true
            · rcases h1 with h1 | ⟨p, hp, hpk, hpe⟩
              · exact Or.inl (by simp [hx, h1])
              · rcases List.mem_cons.mp hp with rfl | hp
                · rw [hx] at hpe; cases hpe
                · exact Or.inr ⟨p, hp, hpk, hpe⟩
            · exact Or.inl (by simp [hx])
          · intro hc0 hc1
            exfalso
            rw [hc0, hc1] at hee
            exact hee rfl

theorem projCheck_ok : ∀ (pairs : List (String × Val)) (c1 : Bool),
    (∀ p ∈ pairs, p.1 ≠ settingsKey → isExclV p.2 = false) →
    projCheck pairs false c1 = .ok ()
  | [], _, _ => rfl
  | (k, v) :: rest, c1, h => by
      by_cases hk : k = settingsKey
      · rw [projCheck, if_pos (by simp [hk])]
        exact projCheck_ok rest c1 (fun p hp => h p (List.mem_cons_of_mem _ hp))
      · have hx : isExclV v = false := h (k, v) (List.mem_cons_self _ _) hk
        rw [projCheck, if_neg (by simp [hk])]
        simp only [hx, Bool.false_eq_true, if_false, if_neg]
        rw [if_neg (by simp)]
        exact projCheck_ok rest true (fun p hp => h p (List.mem_cons_of_mem _ hp))

theorem lookupD_mem : ∀ (fs : List (String × Val)) (k : String),
    k ∈ fs.map Prod.fst → (k, lookupD fs k) ∈ fs
  | [], k, h => absurd h (by simp)
  | (k2, v) :: fs, k, h => by
      by_cases hk : k2 = k
      · subst hk
        simp [lookupD]
      · have hmem : k ∈ fs.map Prod.fst := by
          rcases List.mem_cons.mp h with h | h
          · exact absurd h.symm hk
          · exact h
        have hne : (k2 == k) = false := by simp [hk]
        rw [lookupD, hne]
        simp only [Bool.false_eq_true, if_false]
        exact List.mem_cons_of_mem _ (lookupD_mem fs k hmem)

theorem hasKey_eq_contains_map (fs : List (String × Val)) (k : String) :
    (fs.map Prod.fst).contains k = hasKey fs k := by
  induction fs with
  | nil => rfl
  | cons p fs ih =>
      simp only [hasKey, List.map_cons, List.contains_cons, List.any_cons] at *
      rw [← ih, beq_comm' k p.1]

theorem contains_filter_ne (l : List String) (k : String) :
    (l.filter (fun x => x ≠ k)).contains k = false := by
  induction l with
  | nil => rfl
  | cons x l ih =>
      by_cases hx : x = k
      · simp [List.filter, hx, ih]
      · simp only [List.filter, hx, decide_not, List.contains_cons, ih]
        simp
        exact fun hh => hx hh.symm

theorem projectKeyStep_incl_ok (expr : List (String × Val)) (obj : Val)
    (st : ProjDocState) (key : String) (hk : key ≠ settingsKey)
    (hv : lookupD expr key = Val.int 1 ∨ lookupD expr key = Val.bool true) :
    ∃ st2, projectKeyStep expr obj st key = .ok st2 := by
  have hks : (key == settingsKey) = false := by simp [hk]
  have hkd : (decide (key ≠ settingsKey)) = true := by simp [hk]
  rcases hv with hv | hv
  · unfold projectKeyStep
    rw [hv]
    simp only [hks, hkd, Bool.false_and, Bool.true_and, Bool.false_eq_true, if_false,
      show (Val.int 1 == Val.int 0) = false by decide,
      show isString (Val.int 1) = false from rfl,
      show (Val.int 1 == Val.int 1 || Val.int 1 == Val.bool true) = true by decide,
      if_true]
    exact ⟨_, rfl⟩
  · unfold projectKeyStep
    rw [hv]
    simp only [hks, hkd, Bool.false_and, Bool.true_and, Bool.false_eq_true, if_false,
      show (Val.bool true == Val.int 0) = false by decide,
      show isString (Val.bool true) = false from rfl,
      show (Val.bool true == Val.int 1 || Val.bool true == Val.bool true) = true by decide,
      if_true]
    exact ⟨_, rfl⟩

theorem foldlM_projectKeyStep_ok (expr : List (String × Val)) (obj : Val) :
    ∀ (ks : List String) (st : ProjDocState),
    (∀ k ∈ ks, ∀ st2, ∃ st3, projectKeyStep expr obj st2 k = .ok st3) →
    ∃ stf, ks.foldlM (projectKeyStep expr obj) st = .ok stf
  | [], st, _ => ⟨st, rfl⟩
  | k :: ks, st, h => by
      obtain ⟨st1, hst1⟩ := h k (by simp) st
      obtain ⟨stf, hstf⟩ := foldlM_projectKeyStep_ok expr obj ks st1
        (fun k2 hk2 => h k2 (by simp [hk2]))
      exact ⟨stf, by simp [List.foldlM, hst1, hstf, bind, Except.bind]⟩

theorem projectDoc_ok (expr : List (String × Val)) (ks : List String)
    (idOnly : Bool) (obj : Val)
    (h : ∀ k ∈ ks, k ≠ settingsKey ∧
      (lookupD expr k = Val.int 1 ∨ lookupD expr k = Val.bool true)) :
    ∃ out, projectDoc expr ks idOnly obj = .ok out := by
  obtain ⟨stf, hf⟩ := foldlM_projectKeyStep_ok expr obj ks
    ⟨[], false, false, if idOnly then [settingsKey] else []⟩
    (fun k hk st2 => projectKeyStep_incl_ok expr obj st2 k (h k hk).1 (h k hk).2)
  unfold projectDoc
  simp only [bind, Except.bind, pure, Except.pure, hf]
  split <;> exact ⟨_, rfl⟩

theorem mapM_projectDoc_ok (expr : List (String × Val)) (ks : List String)
    (idOnly : Bool) :
    ∀ (collection : List Val),
    (∀ obj, ∃ out, projectDoc expr ks idOnly obj = .ok out) →
    ∃ outs, collection.mapM (projectDoc expr ks idOnly) = .ok outs
  | [], _ => ⟨[], rfl⟩
  | obj :: rest, h => by
      obtain ⟨out, hout⟩ := h obj
      obtain ⟨outs, houts⟩ := mapM_projectDoc_ok expr ks idOnly rest h
      refine ⟨out :: outs, ?_⟩
      rw [List.mapM_cons, hout, houts]
      rfl

/-- C5: the `$project` stage raises the validation error
"Projection cannot have a mix of inclusion and exclusion." whenever the
specification contains, among keys other than `_id`, both an exclusion value
(`0`/`false`) and an inclusion value (`1`/`true`); and it does not raise when
the `_id` field alone is excluded while every other key is an inclusion. -/
theorem project_inclusion_exclusion (collection : List Val)
    (expr : List (String × Val)) :
    ((∃ p ∈ expr, p.1 ≠ settingsKey ∧ (p.2 = Val.int 0 ∨ p.2 = Val.bool false)) →
     (∃ q ∈ expr, q.1 ≠ settingsKey ∧ (q.2 = Val.int 1 ∨ q.2 = Val.bool true)) →
     dollarProject collection expr =
       .error "Projection cannot have a mix of inclusion and exclusion.") ∧
    ((lookupD expr settingsKey = Val.int 0 ∨
        lookupD expr settingsKey = Val.bool false) →
     hasKey expr settingsKey = true →
     (∀ p ∈ expr, p.1 ≠ settingsKey → (p.2 = Val.int 1 ∨ p.2 = Val.bool true)) →
     ∃ out, dollarProject collection expr = .ok out) := by
  constructor
  · intro hex hinc
    obtain ⟨p, hp, hpk, hpe⟩ := hex
    obtain ⟨q, hq, hqk, hqe⟩ := hinc
    have hexB : isExclV p.2 = true := by
      rcases hpe with h | h <;> rw [h] <;> rfl
    have hincB : isExclV q.2 = false := by
      rcases hqe with h | h <;> rw [h] <;> rfl
    have hne : expr ≠ [] := by
      rintro rfl
      exact absurd hp (List.not_mem_nil p)
    have hnemp : expr.isEmpty = false := by
      cases expr with
      | nil => exact absurd rfl hne
      | cons a l => rfl
    have hchk := projCheck_error expr false false
      (Or.inr ⟨p, hp, hpk, hexB⟩) (Or.inr ⟨q, hq, hqk, hincB⟩)
      (fun h => absurd h (by decide))
    unfold dollarProject
    rw [hchk]
    simp only [hnemp, Bool.false_eq_true, if_false, bind, Except.bind,
      pure, Except.pure]
  · intro hid hhk hall
    have hne : expr ≠ [] := by
      rintro rfl
      simp [hasKey] at hhk
    have hnemp : expr.isEmpty = false := by
      cases expr with
      | nil => exact absurd rfl hne
      | cons a l => rfl
    have hchk : projCheck expr false false = .ok () :=
      projCheck_ok expr false
        (fun p hp hpk => by rcases hall p hp hpk with h | h <;> rw [h] <;> rfl)
    have hcont : (expr.map Prod.fst).contains settingsKey = true := by
      rw [hasKey_eq_contains_map]
      exact hhk
    have hid2 : (lookupD expr settingsKey == Val.int 0 ||
        lookupD expr settingsKey == Val.bool false) = true := by
      rcases hid with h | h <;> rw [h] <;> decide
    have hksc :
        ((expr.map Prod.fst).filter (fun k => k ≠ settingsKey)).contains
          settingsKey = false := contains_filter_ne _ _
    have hkeys : ∀ k ∈ (expr.map Prod.fst).filter (fun k => k ≠ settingsKey),
        k ≠ settingsKey ∧
          (lookupD expr k = Val.int 1 ∨ lookupD expr k = Val.bool true) := by
      intro k hk
      have hkmem := List.mem_filter.mp hk
      have hkne : k ≠ settingsKey := by simpa using hkmem.2
      have hmem : (k, lookupD expr k) ∈ expr := lookupD_mem expr k hkmem.1
      exact ⟨hkne, hall (k, lookupD expr k) hmem hkne⟩
    obtain ⟨outs, houts⟩ := mapM_projectDoc_ok expr
      ((expr.map Prod.fst).filter (fun k => k ≠ settingsKey))
      ((expr.map Prod.fst).filter (fun k => k ≠ settingsKey)).isEmpty collection
      (fun obj => projectDoc_ok expr _ _ obj hkeys)
    refine ⟨outs, ?_⟩
    unfold dollarProject
    rw [hchk]
    simp only [hnemp, Bool.false_eq_true, if_false, hcont, hid2, if_true,
      hksc, Bool.false_and, bind, Except.bind]
    exact houts

/-- C5 witness: a concrete mixed specification is rejected, and a concrete
specification excluding only `_id` succeeds. -/
theorem project_inclusion_exclusion_witness :
    dollarProject [] [("a", Val.int 0), ("b", Val.int 1)] =
      .error "Projection cannot have a mix of inclusion and exclusion." ∧
    ∃ out, dollarProject [] [("_id", Val.int 0), ("a", Val.int 1)] = .ok out :=
  ⟨(project_inclusion_exclusion [] [("a", Val.int 0), ("b", Val.int 1)]).1
      ⟨("a", Val.int 0), by simp, by decide, Or.inl rfl⟩
      ⟨("b", Val.int 1), by simp, by decide, Or.inl rfl⟩,
   (project_inclusion_exclusion [] [("_id", Val.int 0), ("a", Val.int 1)]).2
      (Or.inl (by decide))
      (by decide)
      (by decide)⟩

set_option maxRecDepth 20000 in
/-- C2, counterexample: `$sort` is not idempotent.  Over the two-document
collection `[{a: 1}, {a: "1"}]` with the descending specification
`{a: -1}`, the number and the string compare as incomparable (both `<` and
`>` are false), so the two group keys tie and keep their first-occurrence
order; the descending pass then reverses the groups on every run, so running
the `$sort` stage twice flips the collection back. -/
theorem sort_idempotent_counterexample :
    aggregate [Val.obj [("a", Val.int 1)], Val.obj [("a", Val.str "1")]]
        [.sort [("a", Val.int (-1))], .sort [("a", Val.int (-1))]] ≠
      aggregate [Val.obj [("a", Val.int 1)], Val.obj [("a", Val.str "1")]]
        [.sort [("a", Val.int (-1))]] := by
  with_unfolding_all decide

/-- C2, amended: `$sort` is idempotent on collections whose resolved
sort-key values are all plain (non-NaN) numbers with collision-free
hashcodes: running `[{$sort: S}, {$sort: S}]` equals running
`[{$sort: S}]`.  (Without the number restriction the counterexample above
applies; without collision-freedom the hash-keyed grouping can merge
distinct keys, and the merged group's representative — the first occurrence
— can change between the two runs.) -/
theorem sort_idempotent_amended (xs : List Val) (S : List (String × Val))
    (Hrat : ∀ d ∈ xs, ∀ p ∈ S, isRatNum (resolve d p.1 false) = true)
    (Hinj : ∀ d ∈ xs, ∀ d2 ∈ xs, ∀ p ∈ S,
      hashcode (resolve d p.1 false) = hashcode (resolve d2 p.1 false) →
      resolve d p.1 false = resolve d2 p.1 false) :
    aggregate xs [.sort S, .sort S] = aggregate xs [.sort S] := by
  have hagg2 : aggregate xs [Stage.sort S, Stage.sort S] =
      .ok (dollarSort (dollarSort xs S) S) := rfl
  have hagg1 : aggregate xs [Stage.sort S] = .ok (dollarSort xs S) := rfl
  rw [hagg2, hagg1]
  congr 1
  by_cases hS : S.isEmpty = true
  · simp [dollarSort, hS]
  · have hS2 : S.isEmpty = false := by simpa using hS
    have Hrat1 : ∀ d ∈ xs,
        ∀ p ∈ S.map (fun p => (p.1, lookupD S p.1 == Val.int (-1))),
        ∃ q : ℚ, resolve d p.1 false = Val.num (.rat q) := by
      intro d hd p hp
      obtain ⟨p0, hp0, he⟩ := List.mem_map.mp hp
      have h1 := (isRatNum_iff _).mp (Hrat d hd p0 hp0)
      rwa [show p.1 = p0.1 from by rw [← he]]
    have Hinj1 : ∀ d ∈ xs, ∀ d2 ∈ xs,
        ∀ p ∈ S.map (fun p => (p.1, lookupD S p.1 == Val.int (-1))),
        hashcode (resolve d p.1 false) = hashcode (resolve d2 p.1 false) →
        resolve d p.1 false = resolve d2 p.1 false := by
      intro d hd d2 hd2 p hp
      obtain ⟨p0, hp0, he⟩ := List.mem_map.mp hp
      rw [show p.1 = p0.1 from by rw [← he]]
      exact Hinj d hd d2 hd2 p0 hp0
    rw [dollarSort_eq_chain xs S hS2,
      passChain_eq_insertionSort _ xs Hrat1 Hinj1,
      dollarSort_eq_chain _ S hS2,
      passChain_eq_insertionSort _ _
        (fun d hd p hp => Hrat1 d ((List.mem_insertionSort _).mp hd) p hp)
        (fun d hd d2 hd2 p hp =>
          Hinj1 d ((List.mem_insertionSort _).mp hd)
            d2 ((List.mem_insertionSort _).mp hd2) p hp)]
    exact List.Sorted.insertionSort_eq (List.sorted_insertionSort _ xs)

set_option maxRecDepth 20000 in
/-- C2, witness for the amended theorem: a two-document collection with
numeric sort keys, sorted descending, on which both hypotheses hold. -/
theorem sort_idempotent_amended_witness :
    (∀ d ∈ [Val.obj [("a", Val.int 2)], Val.obj [("a", Val.int 1)]],
      ∀ p ∈ [("a", Val.int (-1))], isRatNum (resolve d p.1 false) = true) ∧
    aggregate [Val.obj [("a", Val.int 2)], Val.obj [("a", Val.int 1)]]
        [.sort [("a", Val.int (-1))], .sort [("a", Val.int (-1))]] =
      aggregate [Val.obj [("a", Val.int 2)], Val.obj [("a", Val.int 1)]]
        [.sort [("a", Val.int (-1))]] :=
  ⟨by decide,
   sort_idempotent_amended
     [Val.obj [("a", Val.int 2)], Val.obj [("a", Val.int 1)]]
     [("a", Val.int (-1))] (by decide) (by with_unfolding_all decide)⟩

/-- C10: the ES6 source (file 0) and the ES5 build (file 1) embed the same
library: `computeValue` returns equal results in the two files for every
document, expression, field and root option, and `Query` construction and
`Query.test` agree for every criteria, projection and candidate document. -/
theorem files_equivalent (obj expr field : Val) (opt : Option Val)
    (criteria projection d : Val) :
    computeValue1 obj expr field opt = computeValue obj expr field opt ∧
    (mkQuery1 criteria projection).map (fun q => queryTest1 q d) =
      (mkQuery criteria projection).map (fun q => queryTest q d) :=
  ⟨computeValue1_eq obj expr field opt, rfl⟩

/-- C9 witness. -/
theorem empty_criteria_matches_all_witness :
    queryCompile (.obj []) = .ok [] ∧
    mingoFind [Val.obj [("a", Val.int 1)], Val.int 5] (.obj []) none =
      .ok [Val.obj [("a", Val.int 1)], Val.int 5] := by
  have h := empty_criteria_matches_all (.obj []) (by tauto)
  exact ⟨h.1, h.2.2 _⟩

end Mingo
